import Mathlib

/-!
Verification of the incremental JSON validator / partial formatter of
JsonLintPlus (the module exposed as `window.JSONValidator`: `parseJSONError`,
`formatUntilError`, `computePartialFormatting`, `validateIncremental`).

Strings are embedded as `List Char`; positions are indices into that list.
The reference strict parser (`JSON.parse`) and pretty-printer
(`JSON.stringify`) are platform oracles, not code of the repository; they are
modelled concretely below from the spec's boundary description (section 6).
-/

namespace JsonLintPlus

/-! ### Character classes -/

/-- The character class of the JavaScript regex `\s` (used by the module's
regexes and by the formatter's whitespace-collapsing branch). -/
def jsWs (c : Char) : Bool :=
  c == ' ' || c == '\t' || c == '\n' || c == '\r' || c == '\x0b' || c == '\x0c' ||
  c == '\u00A0' || c == '\u1680' || (0x2000 ≤ c.toNat && c.toNat ≤ 0x200A) ||
  c == '\u2028' || c == '\u2029' || c == '\u202F' || c == '\u205F' ||
  c == '\u3000' || c == '\uFEFF'

/-- Decimal digit, the class of `\d` and of JSON number digits. -/
def isDigit (c : Char) : Bool := 48 ≤ c.toNat && c.toNat ≤ 57

/-! ### ErrorLocator: the two message regexes

`parseJSONError` probes the parser's message with
`/line\s+(\d+)\s*(?:[,]|)\s*column\s+(\d+)/i` and `/position\s+(\d+)/i`.
Both regexes are deterministic (greedy maximal munch never needs
backtracking here, since `\d` and `\s` classes are disjoint from the literal
letters that follow them), so they are modelled as direct scanners, tried at
every start index left to right as `String.prototype.match` does. -/

/-- ASCII-only lowercasing, the canonicalisation a non-unicode `/i` regex
applies (non-ASCII characters never fold onto ASCII letters there). -/
def asciiLower (c : Char) : Char :=
  if 'A' ≤ c ∧ c ≤ 'Z' then Char.ofNat (c.toNat + 32) else c

/-- Match a literal pattern (given lowercase) case-insensitively at the head. -/
def stripCI : List Char → List Char → Option (List Char)
  | [], cs => some cs
  | _ :: _, [] => none
  | p :: ps, c :: cs => if asciiLower c = p then stripCI ps cs else none

/-- Greedy `\s*`. -/
def dropJsWs (cs : List Char) : List Char := cs.dropWhile jsWs

/-- Greedy `\s+`: at least one whitespace character. -/
def wsPlus : List Char → Option (List Char)
  | c :: t => if jsWs c then some (dropJsWs t) else none
  | [] => none

/-- Greedy `(\d+)`, returning the captured number (exact, as the digits read
in base 10) and the rest. -/
def grabDigits (cs : List Char) : Option (Nat × List Char) :=
  let ds := cs.takeWhile isDigit
  if ds.isEmpty then none
  else some (ds.foldl (fun n c => n * 10 + (c.toNat - 48)) 0, cs.dropWhile isDigit)

/-- The line/column regex tried at one start position. -/
def lcHere (cs : List Char) : Option (Nat × Nat) := do
  let cs ← stripCI ['l', 'i', 'n', 'e'] cs
  let cs ← wsPlus cs
  let (l, cs) ← grabDigits cs
  let cs := dropJsWs cs
  let cs := match cs with
    | ',' :: t => dropJsWs t
    | other => other
  let cs ← stripCI ['c', 'o', 'l', 'u', 'm', 'n'] cs
  let cs ← wsPlus cs
  let (c, _) ← grabDigits cs
  pure (l, c)

/-- The position regex tried at one start position. -/
def posHere (cs : List Char) : Option Nat := do
  let cs ← stripCI ['p', 'o', 's', 'i', 't', 'i', 'o', 'n'] cs
  let cs ← wsPlus cs
  let (p, _) ← grabDigits cs
  pure p

/-- Leftmost match of the line/column regex over the whole message. -/
def firstLC : List Char → Option (Nat × Nat)
  | [] => none
  | c :: t =>
    match lcHere (c :: t) with
    | some r => some r
    | none => firstLC t

/-- Leftmost match of the position regex over the whole message. -/
def firstPos : List Char → Option Nat
  | [] => none
  | c :: t =>
    match posHere (c :: t) with
    | some r => some r
    | none => firstPos t

/-! ### ErrorLocator: `parseJSONError` -/

/-- The locator's result record. -/
structure ErrorInfo where
  line : Nat
  column : Nat
  position : Nat
  message : List Char
deriving Repr, DecidableEq

/-- `String.prototype.split('\n')`: never empty, one entry per line. -/
def splitNl : List Char → List (List Char)
  | [] => [[]]
  | c :: t =>
    if c = '\n' then [] :: splitNl t
    else
      match splitNl t with
      | [] => [[c]]
      | l :: ls => (c :: l) :: ls

/-- Sum of `length + 1` over the first `k` lines (the `+1` re-counts the
newline removed by the split), exactly the locator's position loop. -/
def sumLineLens (ls : List (List Char)) (k : Nat) : Nat :=
  (ls.take k).foldl (fun a l => a + (l.length + 1)) 0

/-- `parseJSONError(errorMessage, jsonString)` from the source: probe the
message for a line/column pattern, else a position pattern, else fall back to
`line 1, column 1, position 0`. -/
def parseJSONError (errorMessage jsonString : List Char) : ErrorInfo :=
  match firstLC errorMessage with
  | some (line, column) =>
    let position :=
      if jsonString.isEmpty then 0
      else sumLineLens (splitNl jsonString) (line - 1) + (column - 1)
    { line := line, column := column, position := position, message := errorMessage }
  | none =>
    let position :=
      match firstPos errorMessage with
      | some p => p
      | none => 0
    if 0 < position ∧ ¬jsonString.isEmpty then
      let before := jsonString.take position
      let linesArr := splitNl before
      { line := linesArr.length, column := (linesArr.getLastD []).length + 1,
        position := position, message := errorMessage }
    else
      { line := 1, column := 1, position := position, message := errorMessage }

/-! ### PartialFormatter: the single-pass re-indenting automaton -/

/-- Full automaton state: the emitted buffer plus the scanning triple. -/
structure FmtState where
  out : List Char
  level : Nat
  inString : Bool
  escape : Bool
deriving Repr, DecidableEq

/-- `indentStr.repeat n`. -/
def indentRep (indentStr : List Char) : Nat → List Char
  | 0 => []
  | n + 1 => indentStr ++ indentRep indentStr n

/-- `out.replace(/[ \t]*$/, '')`: strip a trailing run of spaces/tabs. -/
def trimLineEnd (out : List Char) : List Char :=
  (out.reverse.dropWhile (fun c => c == ' ' || c == '\t')).reverse

/-- One character step of `computePartialFormatting`'s loop, branch for
branch from the source. -/
def fmtStep (indentStr : List Char) (st : FmtState) (ch : Char) : FmtState :=
  if st.inString then
    let st' := { st with out := st.out ++ [ch] }
    if st.escape then { st' with escape := false }
    else if ch = '\\' then { st' with escape := true }
    else if ch = '"' then { st' with inString := false }
    else st'
  else if ch = '"' then { st with inString := true, out := st.out ++ [ch] }
  else if ch = '{' ∨ ch = '[' then
    { st with level := st.level + 1,
              out := st.out ++ ch :: '\n' :: indentRep indentStr (st.level + 1) }
  else if ch = '}' ∨ ch = ']' then
    { st with level := st.level - 1,
              out := trimLineEnd st.out ++ '\n' :: indentRep indentStr (st.level - 1) ++ [ch] }
  else if ch = ',' then { st with out := st.out ++ ch :: '\n' :: indentRep indentStr st.level }
  else if ch = ':' then { st with out := st.out ++ [':', ' '] }
  else if jsWs ch then
    match st.out.getLast? with
    | some prev => if jsWs prev then st else { st with out := st.out ++ [' '] }
    | none => st
  else { st with out := st.out ++ [ch] }

/-- The record `computePartialFormatting` returns. -/
structure PartialResult where
  formatted : List Char
  formattedErrorOffset : Nat
deriving Repr, DecidableEq

/-- `computePartialFormatting(src, endIndex, indentStr)`: run the automaton
over the first `min(src.length, endIndex)` characters (the source also floors
`endIndex` at 0, which `Nat` gives for free). -/
def computePartialFormatting (src : List Char) (endIndex : Nat)
    (indentStr : List Char) : PartialResult :=
  let n := min src.length endIndex
  let st := (src.take n).foldl (fmtStep indentStr) ⟨[], 0, false, false⟩
  { formatted := st.out, formattedErrorOffset := st.out.length }

/-! ### The emission-free replay loop of `validateIncremental` -/

/-- The replayed triple (the source names the depth `level`). -/
structure TokState where
  level : Nat
  inString : Bool
  escape : Bool
deriving Repr, DecidableEq

/-- One step of the replay loop in `validateIncremental` (lines 146-170). -/
def tokStep (st : TokState) (ch : Char) : TokState :=
  if st.inString then
    if st.escape then { st with escape := false }
    else if ch = '\\' then { st with escape := true }
    else if ch = '"' then { st with inString := false }
    else st
  else if ch = '"' then { st with inString := true }
  else if ch = '{' ∨ ch = '[' then { st with level := st.level + 1 }
  else if ch = '}' ∨ ch = ']' then { st with level := st.level - 1 }
  else st

/-- The replay over `source[0:errorIndex]`. -/
def replayTok (src : List Char) (errorIndex : Nat) : TokState :=
  (src.take errorIndex).foldl tokStep ⟨0, false, false⟩

/-! ### The reference oracles, modelled

Modelled from the spec: the repository delegates validity to "a reference
strict JSON parser (parse: string → value, throws/reports failure with a
message containing either line/column or a position integer) and a
pretty-printer (value, indent → string) — both treated as opaque oracles"
(spec section 6).  Neither is code under `src/`, so both are modelled here:
a strict fuel-based JSON parser whose failure messages carry a `position P`
suffix, and the standard `JSON.stringify(v, null, gap)` rendering.  Number
tokens are kept verbatim (the spec never requires re-serialising numeric
values), and object members are kept in textual order. -/

/-- Strict JSON whitespace (space, tab, line feed, carriage return). -/
def jsonWs (c : Char) : Bool := c == ' ' || c == '\t' || c == '\n' || c == '\r'

/-- The grammar check for a JSON number token: integer part. -/
def chompIntPart : List Char → Option (List Char)
  | [] => none
  | c :: t =>
    if c = '0' then some t
    else if 49 ≤ c.toNat ∧ c.toNat ≤ 57 then some (t.dropWhile isDigit) else none

/-- The grammar check for a JSON number token: optional fraction. -/
def chompFracPart : List Char → Option (List Char)
  | [] => some []
  | c :: t =>
    if c = '.' then
      match t with
      | d :: _ => if isDigit d then some (t.dropWhile isDigit) else none
      | [] => none
    else some (c :: t)

/-- The grammar check for a JSON number token: optional exponent. -/
def chompExpPart : List Char → Option (List Char)
  | c :: t =>
    if c = 'e' ∨ c = 'E' then
      let t1 := match t with
        | s :: t2 => if s = '+' ∨ s = '-' then t2 else s :: t2
        | [] => []
      match t1 with
      | d :: _ => if isDigit d then some (t1.dropWhile isDigit) else none
      | [] => none
    else some (c :: t)
  | [] => some []

/-- `-?(0|[1-9][0-9]*)(\.[0-9]+)?([eE][+-]?[0-9]+)?`, whole-token. -/
def validNumberToken (cs : List Char) : Bool :=
  let cs1 := match cs with
    | c :: t => if c = '-' then t else c :: t
    | [] => []
  match chompIntPart cs1 with
  | none => false
  | some cs2 =>
    match chompFracPart cs2 with
    | none => false
    | some cs3 =>
      match chompExpPart cs3 with
      | none => false
      | some cs4 => cs4.isEmpty

/-- A valid JSON number token, carried verbatim. -/
abbrev NumToken := { l : List Char // validNumberToken l = true }

/-- A parsed JSON value (the reference parser's output). -/
inductive JsonValue where
  | null
  | bool (b : Bool)
  | num (tok : NumToken)
  | str (s : List Char)
  | arr (elems : List JsonValue)
  | obj (members : List (List Char × JsonValue))

/-- Lower nibble to hex, as `JSON.stringify` renders control escapes. -/
def toHexDigit (n : Nat) : Char :=
  if n < 10 then Char.ofNat (48 + n) else Char.ofNat (87 + n)

/-- `JSON.stringify`'s escaping of one string character. -/
def escapeChar (c : Char) : List Char :=
  if c = '"' then ['\\', '"']
  else if c = '\\' then ['\\', '\\']
  else if c = '\x08' then ['\\', 'b']
  else if c = '\x0c' then ['\\', 'f']
  else if c = '\n' then ['\\', 'n']
  else if c = '\r' then ['\\', 'r']
  else if c = '\t' then ['\\', 't']
  else if c.toNat < 0x20 then
    ['\\', 'u', '0', '0', toHexDigit (c.toNat / 16), toHexDigit (c.toNat % 16)]
  else [c]

/-- The escaped body of a string literal. -/
def escBody (s : List Char) : List Char :=
  s.foldr (fun c acc => escapeChar c ++ acc) []

/-- A quoted, escaped string token. -/
def quoteStr (s : List Char) : List Char := '"' :: escBody s ++ ['"']

/-- The line break plus indentation `JSON.stringify` emits at depth `d`
(nothing when the gap is empty: then the output is the compact form). -/
def nlIndent (gap : List Char) (d : Nat) : List Char :=
  if gap.isEmpty then [] else '\n' :: indentRep gap d

/-- The key/value separator: `":"` compact, `": "` with a gap. -/
def colonSep (gap : List Char) : List Char :=
  if gap.isEmpty then [':'] else [':', ' ']

mutual
/-- `JSON.stringify(v, null, gap)` at depth `d` (modelled from the spec's
"pretty-print of parsed value using indentUnit"). -/
def renderValue (gap : List Char) : JsonValue → Nat → List Char
  | .null, _ => ['n', 'u', 'l', 'l']
  | .bool true, _ => ['t', 'r', 'u', 'e']
  | .bool false, _ => ['f', 'a', 'l', 's', 'e']
  | .num tok, _ => tok.val
  | .str s, _ => quoteStr s
  | .arr [], _ => ['[', ']']
  | .arr (e :: es), d =>
    '[' :: nlIndent gap (d + 1) ++ renderItems gap (e :: es) (d + 1) ++
      nlIndent gap d ++ [']']
  | .obj [], _ => ['{', '}']
  | .obj (m :: ms), d =>
    '{' :: nlIndent gap (d + 1) ++ renderMembers gap (m :: ms) (d + 1) ++
      nlIndent gap d ++ ['}']

/-- Array elements, comma separated. -/
def renderItems (gap : List Char) : List JsonValue → Nat → List Char
  | [], _ => []
  | [e], d => renderValue gap e d
  | e :: e2 :: es, d =>
    renderValue gap e d ++ ',' :: nlIndent gap d ++ renderItems gap (e2 :: es) d

/-- Object members, comma separated. -/
def renderMembers (gap : List Char) : List (List Char × JsonValue) → Nat → List Char
  | [], _ => []
  | [(k, v)], d => quoteStr k ++ colonSep gap ++ renderValue gap v d
  | (k, v) :: m2 :: ms, d =>
    quoteStr k ++ colonSep gap ++ renderValue gap v d ++
      ',' :: nlIndent gap d ++ renderMembers gap (m2 :: ms) d
end

mutual
/-- `v` contains no empty object and no empty array anywhere. -/
def noEmpty : JsonValue → Bool
  | .null => true
  | .bool _ => true
  | .num _ => true
  | .str _ => true
  | .arr [] => false
  | .arr (e :: es) => noEmpty e && noEmptyItems es
  | .obj [] => false
  | .obj ((_, v) :: ms) => noEmpty v && noEmptyMembers ms

/-- `noEmpty` on every element of a list. -/
def noEmptyItems : List JsonValue → Bool
  | [] => true
  | e :: es => noEmpty e && noEmptyItems es

/-- `noEmpty` on every member value of a list. -/
def noEmptyMembers : List (List Char × JsonValue) → Bool
  | [] => true
  | (_, v) :: ms => noEmpty v && noEmptyMembers ms
end

/-- A character with no special meaning to the formatting automaton outside
string literals: not a quote, bracket, comma, colon, or JS whitespace. -/
def plainChar (c : Char) : Bool :=
  !(c == '"') && !(c == '{') && !(c == '[') && !(c == '}') && !(c == ']') &&
    !(c == ',') && !(c == ':') && !jsWs c

/-! ### The modelled reference parser -/

/-- Strict-JSON whitespace skipping. -/
def skipJsonWs (cs : List Char) : List Char := cs.dropWhile jsonWs

/-- Internal failure kinds of the modelled parser. -/
inductive ParseErrKind where
  | endOfInput
  | unexpectedChar (c : Char)
  | badNumber
  | badEscape
  | badControlChar
  | unterminatedString
  | outOfFuel
deriving Repr, DecidableEq

/-- Internal results carry the failure kind plus the length of the input
suffix still unread at the failure site (turned into an absolute position at
the top level). -/
abbrev PResult (α : Type) := Except (ParseErrKind × Nat) α

/-- Decoding of the single-character string escapes. -/
def decodeEscape (c : Char) : Option Char :=
  if c = '"' then some '"'
  else if c = '\\' then some '\\'
  else if c = '/' then some '/'
  else if c = 'b' then some '\x08'
  else if c = 'f' then some '\x0c'
  else if c = 'n' then some '\n'
  else if c = 'r' then some '\r'
  else if c = 't' then some '\t'
  else none

/-- Hex digit value, both cases. -/
def hexDigitVal (c : Char) : Option Nat :=
  if '0' ≤ c ∧ c ≤ '9' then some (c.toNat - 48)
  else if 'a' ≤ c ∧ c ≤ 'f' then some (c.toNat - 87)
  else if 'A' ≤ c ∧ c ≤ 'F' then some (c.toNat - 55)
  else none

/-- String body after the opening quote: unescape up to the closing quote. -/
def parseStringBody : List Char → PResult (List Char × List Char)
  | [] => .error (.unterminatedString, 0)
  | '"' :: rest => .ok ([], rest)
  | '\\' :: 'u' :: a :: b :: c :: d :: rest =>
    match hexDigitVal a, hexDigitVal b, hexDigitVal c, hexDigitVal d with
    | some va, some vb, some vc, some vd =>
      (parseStringBody rest).map (fun p =>
        (Char.ofNat (((va * 16 + vb) * 16 + vc) * 16 + vd) :: p.1, p.2))
    | _, _, _, _ => .error (.badEscape, rest.length + 4)
  | '\\' :: e :: rest =>
    match decodeEscape e with
    | some c => (parseStringBody rest).map (fun p => (c :: p.1, p.2))
    | none => .error (.badEscape, rest.length + 1)
  | c :: rest =>
    if c.toNat < 0x20 then .error (.badControlChar, rest.length + 1)
    else (parseStringBody rest).map (fun p => (c :: p.1, p.2))

/-- Characters that can extend a number token. -/
def numChar (c : Char) : Bool :=
  isDigit c || c = '-' || c = '+' || c = '.' || c = 'e' || c = 'E'

/-- Scan a maximal number-shaped run, then check it against the grammar. -/
def parseNumberToken (cs : List Char) : PResult (JsonValue × List Char) :=
  let tok := cs.takeWhile numChar
  if h : validNumberToken tok = true then .ok (.num ⟨tok, h⟩, cs.dropWhile numChar)
  else .error (.badNumber, cs.length)

mutual
/-- One JSON value, fuel-based (fuel only ever falls together with at least
one consumed character, so `length + 1` fuel always suffices). -/
def parseValue : Nat → List Char → PResult (JsonValue × List Char)
  | 0, cs => .error (.outOfFuel, cs.length)
  | fuel + 1, cs =>
    match skipJsonWs cs with
    | [] => .error (.endOfInput, 0)
    | c :: t =>
      if c = '{' then
        match skipJsonWs t with
        | [] => .error (.endOfInput, 0)
        | c2 :: t2 =>
          if c2 = '}' then .ok (.obj [], t2)
          else (parseMembersFrom fuel (c2 :: t2)).map (fun p => (.obj p.1, p.2))
      else if c = '[' then
        match skipJsonWs t with
        | [] => .error (.endOfInput, 0)
        | c2 :: t2 =>
          if c2 = ']' then .ok (.arr [], t2)
          else (parseItemsFrom fuel (c2 :: t2)).map (fun p => (.arr p.1, p.2))
      else if c = '"' then
        (parseStringBody t).map (fun p => (.str p.1, p.2))
      else if c = 't' then
        match t with
        | 'r' :: 'u' :: 'e' :: r => .ok (.bool true, r)
        | _ => .error (.unexpectedChar c, t.length + 1)
      else if c = 'f' then
        match t with
        | 'a' :: 'l' :: 's' :: 'e' :: r => .ok (.bool false, r)
        | _ => .error (.unexpectedChar c, t.length + 1)
      else if c = 'n' then
        match t with
        | 'u' :: 'l' :: 'l' :: r => .ok (.null, r)
        | _ => .error (.unexpectedChar c, t.length + 1)
      else if isDigit c || c = '-' then parseNumberToken (c :: t)
      else .error (.unexpectedChar c, t.length + 1)

/-- One-or-more object members (the empty object is handled by the caller,
so trailing commas are rejected). -/
def parseMembersFrom : Nat → List Char → PResult (List (List Char × JsonValue) × List Char)
  | 0, cs => .error (.outOfFuel, cs.length)
  | fuel + 1, cs =>
    match skipJsonWs cs with
    | '"' :: t =>
      match parseStringBody t with
      | .error e => .error e
      | .ok (k, r1) =>
        match skipJsonWs r1 with
        | ':' :: r2 =>
          match parseValue fuel r2 with
          | .error e => .error e
          | .ok (v, r3) =>
            match skipJsonWs r3 with
            | ',' :: r4 => (parseMembersFrom fuel r4).map (fun p => ((k, v) :: p.1, p.2))
            | '}' :: r4 => .ok ([(k, v)], r4)
            | [] => .error (.endOfInput, 0)
            | c :: t2 => .error (.unexpectedChar c, t2.length + 1)
        | [] => .error (.endOfInput, 0)
        | c :: t2 => .error (.unexpectedChar c, t2.length + 1)
    | [] => .error (.endOfInput, 0)
    | c :: t2 => .error (.unexpectedChar c, t2.length + 1)

/-- One-or-more array items (the empty array is handled by the caller). -/
def parseItemsFrom : Nat → List Char → PResult (List JsonValue × List Char)
  | 0, cs => .error (.outOfFuel, cs.length)
  | fuel + 1, cs =>
    match parseValue fuel cs with
    | .error e => .error e
    | .ok (v, r) =>
      match skipJsonWs r with
      | ',' :: r2 => (parseItemsFrom fuel r2).map (fun p => (v :: p.1, p.2))
      | ']' :: r2 => .ok ([v], r2)
      | [] => .error (.endOfInput, 0)
      | c :: t2 => .error (.unexpectedChar c, t2.length + 1)
end

/-- Decimal rendering of a position for failure messages. -/
def natChars (n : Nat) : List Char := (Nat.repr n).data

/-- The failure message, always carrying an explicit `position P`. -/
def renderParseError (k : ParseErrKind) (pos : Nat) : List Char :=
  (match k with
   | .endOfInput => "Unexpected end of JSON input".data
   | .unexpectedChar c => "Unexpected token ".data ++ [c] ++ " in JSON".data
   | .badNumber => "Invalid number in JSON".data
   | .badEscape => "Bad escaped character in JSON".data
   | .badControlChar => "Bad control character in string literal in JSON".data
   | .unterminatedString => "Unterminated string in JSON".data
   | .outOfFuel => "Depth limit exceeded in JSON".data)
  ++ " at position ".data ++ natChars pos

/-- Modelled from the spec: the reference strict parser `JSON.parse` —
parse one value, require only whitespace after it, and report failures with
a message containing the absolute character position. -/
def jsonParse (s : List Char) : Except (List Char) JsonValue :=
  match parseValue (s.length + 1) s with
  | .error (k, rem) => .error (renderParseError k (s.length - rem))
  | .ok (v, rest) =>
    match skipJsonWs rest with
    | [] => .ok v
    | c :: t => .error (renderParseError (.unexpectedChar c) (s.length - (t.length + 1)))

/-! ### IncrementalValidator: `formatUntilError` and `validateIncremental` -/

/-- The `options.indentation` value: absent, the string `'tab'`, or a count
(`parseInt(indentation, 10) || 2` turns `0`/`NaN` into 2). -/
inductive Indentation where
  | unset
  | tab
  | spaces (n : Nat)

/-- `indentation === 'tab' ? '\t' : ' '.repeat(parseInt(indentation, 10) || 2)`
with the default `2` when the option is absent. -/
def indentStrOf : Indentation → List Char
  | .unset => [' ', ' ']
  | .tab => ['\t']
  | .spaces n => List.replicate (if n = 0 then 2 else n) ' '

/-- The invalid-branch record of `formatUntilError`. -/
structure FormatInvalid where
  error : List Char
  errorInfo : ErrorInfo
  errorIndex : Nat
  formattedPrefix : List Char
  suffix : List Char
  formattedErrorOffset : Nat
  formattedContent : List Char

/-- The result of `formatUntilError`, discriminated by `isValid`. -/
inductive FormatResult where
  | valid (formattedFull : List Char)
  | invalid (r : FormatInvalid)

/-- `formatUntilError(jsonString, options)` from the source. -/
def formatUntilError (jsonString : List Char) (options : Indentation) : FormatResult :=
  let indentStr := indentStrOf options
  match jsonParse jsonString with
  | .ok parsed => .valid (renderValue indentStr parsed 0)
  | .error msg =>
    let errorInfo := parseJSONError msg jsonString
    let errorIndex := min errorInfo.position jsonString.length
    let part := computePartialFormatting jsonString errorIndex indentStr
    let suffix := jsonString.drop errorIndex
    .invalid
      { error := msg
        errorInfo := errorInfo
        errorIndex := errorIndex
        formattedPrefix := part.formatted
        suffix := suffix
        formattedErrorOffset := part.formattedErrorOffset
        formattedContent := part.formatted ++ suffix }

/-- The invalid-branch record of `validateIncremental`: the same fields plus
the replayed token context and the expected-next-token hint. -/
structure ValidateInvalid where
  error : List Char
  errorInfo : ErrorInfo
  errorIndex : Nat
  formattedPrefix : List Char
  suffix : List Char
  formattedErrorOffset : Nat
  formattedContent : List Char
  tokenContext : TokState
  expected : List Char

/-- The result of `validateIncremental`, discriminated by `isValid`. -/
inductive ValidateResult where
  | valid (parsed : JsonValue) (formattedFull : List Char)
  | invalid (r : ValidateInvalid)

/-- `validateIncremental(jsonString, options)` from the source: the same
pipeline plus the emission-free replay and the three-way classification. -/
def validateIncremental (jsonString : List Char) (options : Indentation) : ValidateResult :=
  let indentStr := indentStrOf options
  match jsonParse jsonString with
  | .ok parsed => .valid parsed (renderValue indentStr parsed 0)
  | .error msg =>
    let errorInfo := parseJSONError msg jsonString
    let errorIndex := min errorInfo.position jsonString.length
    let ctx := replayTok jsonString errorIndex
    let part := computePartialFormatting jsonString errorIndex indentStr
    let suffix := jsonString.drop errorIndex
    let expected :=
      if ctx.inString then "terminating quote \" for string".data
      else if 0 < ctx.level then "closing brace/bracket or next value".data
      else "value or end of input".data
    .invalid
      { error := msg
        errorInfo := errorInfo
        errorIndex := errorIndex
        formattedPrefix := part.formatted
        suffix := suffix
        formattedErrorOffset := part.formattedErrorOffset
        formattedContent := part.formatted ++ suffix
        tokenContext := ctx
        expected := expected }

/-! ### Projections used to state the claims (and keep witnesses closed) -/

/-- The `isValid` tag of a `formatUntilError` result. -/
def FormatResult.isValid : FormatResult → Bool
  | .valid _ => true
  | .invalid _ => false

/-- The `formattedFull` field (empty on the invalid branch, which lacks it). -/
def FormatResult.formattedFull : FormatResult → List Char
  | .valid f => f
  | .invalid _ => []

/-- The invalid-branch record, if any. -/
def FormatResult.inv? : FormatResult → Option FormatInvalid
  | .valid _ => none
  | .invalid r => some r

/-- The `isValid` tag of a `validateIncremental` result. -/
def ValidateResult.isValid : ValidateResult → Bool
  | .valid _ _ => true
  | .invalid _ => false

/-- The invalid-branch record, if any. -/
def ValidateResult.inv? : ValidateResult → Option ValidateInvalid
  | .valid _ _ => none
  | .invalid r => some r

/-- Projection of the full formatter state onto the replayed triple. -/
def projFmt (st : FmtState) : TokState := ⟨st.level, st.inString, st.escape⟩

/-- The failure message of the modelled parser on empty input. -/
def emptyInputMsg : List Char := "Unexpected end of JSON input at position 0".data

/-- The invalid record `formatUntilError` produces on empty input. -/
def emptyInvalidRecord : FormatInvalid :=
  { error := emptyInputMsg
    errorInfo := ⟨1, 1, 0, emptyInputMsg⟩
    errorIndex := 0
    formattedPrefix := []
    suffix := []
    formattedErrorOffset := 0
    formattedContent := [] }

/-- Strings made only of strict-JSON whitespace (indent units, line breaks). -/
def wsOnly (cs : List Char) : Bool := cs.all jsonWs

/-- A continuation that cannot extend a number token. -/
def headNotNum : List Char → Bool
  | [] => true
  | c :: _ => !numChar c

/-! ## Theorems -/

/-- The replay step agrees with the formatter step on the scanning triple
(the formatter's extra branches only touch the output buffer). -/
theorem tokStep_eq_projFmt (ind : List Char) (st : FmtState) (ch : Char) :
    tokStep (projFmt st) ch = projFmt (fmtStep ind st ch) := by
  cases hs : st.inString
  all_goals simp only [tokStep, fmtStep, projFmt, hs, Bool.false_eq_true, if_true, if_false]
  all_goals split_ifs
  all_goals try rfl
  all_goals cases st.out.getLast? <;> dsimp only <;> (try split_ifs) <;> simp [hs]

/-- Folding the replay step from a projected state tracks the formatter. -/
theorem foldl_tokStep_projFmt (ind : List Char) :
    ∀ (cs : List Char) (st : FmtState),
      cs.foldl tokStep (projFmt st) = projFmt (cs.foldl (fmtStep ind) st)
  | [], _ => rfl
  | c :: cs, st => by
    rw [List.foldl_cons, List.foldl_cons, tokStep_eq_projFmt ind st c,
      foldl_tokStep_projFmt ind cs (fmtStep ind st c)]

/-- C10: the emission-free replay of `validateIncremental` computes exactly
the scanning triple of the `computePartialFormatting` automaton over the same
prefix, and the `tokenContext` handed to the caller is that projection of the
formatter run that produced `formattedPrefix`. -/
theorem replay_agrees_with_formatter (src : List Char) (idx : Nat)
    (ind : List Char) (opts : Indentation) :
    replayTok src idx =
      projFmt ((src.take (min src.length idx)).foldl (fmtStep ind) ⟨[], 0, false, false⟩) ∧
    (validateIncremental src opts).inv?.map (fun r => r.tokenContext) =
      (validateIncremental src opts).inv?.map (fun r =>
        projFmt ((src.take (min src.length r.errorIndex)).foldl
          (fmtStep (indentStrOf opts)) ⟨[], 0, false, false⟩)) := by
  have key : ∀ (ind2 : List Char) (k : Nat),
      replayTok src k =
        projFmt ((src.take (min src.length k)).foldl (fmtStep ind2) ⟨[], 0, false, false⟩) := by
    intro ind2 k
    have htake : src.take (min src.length k) = src.take k := by
      rcases Nat.le_total k src.length with h | h
      · rw [Nat.min_eq_right h]
      · rw [Nat.min_eq_left h, List.take_length, List.take_of_length_le h]
    rw [htake, replayTok]
    exact foldl_tokStep_projFmt ind2 (src.take k) ⟨[], 0, false, false⟩
  refine ⟨key ind idx, ?_⟩
  unfold validateIncremental
  cases jsonParse src with
  | ok v => rfl
  | error msg => exact congrArg some (key (indentStrOf opts) _)

/-- C4: `computePartialFormatting` always reports `formattedErrorOffset`
equal to the length of the formatted prefix it returns. -/
theorem formattedErrorOffset_eq_length (src : List Char) (endIndex : Nat)
    (indentStr : List Char) :
    (computePartialFormatting src endIndex indentStr).formattedErrorOffset =
      (computePartialFormatting src endIndex indentStr).formatted.length := rfl

/-- C6: on every input where the reference parser fails, both orchestrators
return `errorIndex = clamp(errorInfo.position, 0, length source)`, the suffix
`source[errorIndex:]`, and `formattedContent = formattedPrefix ++ suffix`
(stated over the invalid branch, which is taken exactly on parser failure). -/
theorem errorIndex_suffix_content_spec (src : List Char) (opts : Indentation) :
    (formatUntilError src opts).inv?.map
        (fun r => (r.errorIndex, r.suffix, r.formattedContent)) =
      (formatUntilError src opts).inv?.map
        (fun r => (min r.errorInfo.position src.length, src.drop r.errorIndex,
          r.formattedPrefix ++ r.suffix)) ∧
    (validateIncremental src opts).inv?.map
        (fun r => (r.errorIndex, r.suffix, r.formattedContent)) =
      (validateIncremental src opts).inv?.map
        (fun r => (min r.errorInfo.position src.length, src.drop r.errorIndex,
          r.formattedPrefix ++ r.suffix)) := by
  constructor
  · unfold formatUntilError
    cases jsonParse src with
    | ok v => rfl
    | error msg => rfl
  · unfold validateIncremental
    cases jsonParse src with
    | ok v => rfl
    | error msg => rfl

/-- C5 (amended): `validateIncremental` classifies the replayed context with
exactly the source's three literals; the in-string literal is
`terminating quote " for string` (it contains a quote character, unlike the
spec's wording). -/
theorem expected_classification (src : List Char) (opts : Indentation) :
    (validateIncremental src opts).inv?.map (fun r => r.expected) =
      (validateIncremental src opts).inv?.map (fun r =>
        if r.tokenContext.inString then "terminating quote \" for string".data
        else if 0 < r.tokenContext.level then "closing brace/bracket or next value".data
        else "value or end of input".data) := by
  unfold validateIncremental
  cases jsonParse src with
  | ok v => rfl
  | error msg => rfl

/-- C5 (counterexample): on the unterminated string `"ab` the replayed
context has `inString = true`, yet `expected` is the code's literal
`terminating quote " for string`, not the spec's
`terminating quote for string`. -/
theorem expected_literal_differs :
    (validateIncremental "\"ab".data Indentation.unset).inv?.map
        (fun r => (r.tokenContext.inString, r.expected)) =
      some (true, "terminating quote \" for string".data) ∧
    "terminating quote \" for string".data ≠ "terminating quote for string".data := by
  exact ⟨rfl, by decide⟩

/-- C9: `formatPrefix(s, 0, _)` yields an empty formatted prefix with offset
0, and when the boundary handed to the caller is 0 the suffix is the whole
original string unchanged. -/
theorem formatPrefix_zero (src indentStr : List Char) (opts : Indentation) :
    (computePartialFormatting src 0 indentStr).formatted = [] ∧
    (computePartialFormatting src 0 indentStr).formattedErrorOffset = 0 ∧
    ∀ r, (formatUntilError src opts).inv? = some r → r.errorIndex = 0 →
      r.suffix = src := by
  refine ⟨by simp [computePartialFormatting], by simp [computePartialFormatting], ?_⟩
  intro r h h0
  unfold formatUntilError at h
  cases hp : jsonParse src with
  | ok v => rw [hp] at h; exact absurd h (by simp [FormatResult.inv?])
  | error msg =>
    rw [hp] at h
    simp only [FormatResult.inv?, Option.some.injEq] at h
    subst h
    simp only at h0 ⊢
    rw [h0, List.drop_zero]

/-- Witness for C9 at empty input: the parser fails at position 0, the record
has `errorIndex = 0`, and its suffix is the whole (empty) source. -/
theorem formatPrefix_zero_witness :
    (computePartialFormatting "ab".data 0 [' ', ' ']).formatted = [] ∧
    (formatUntilError [] Indentation.unset).inv? = some emptyInvalidRecord ∧
    emptyInvalidRecord.suffix = ([] : List Char) := by
  refine ⟨(formatPrefix_zero "ab".data [' ', ' '] Indentation.unset).1, rfl, ?_⟩
  exact (formatPrefix_zero [] [' ', ' '] Indentation.unset).2.2 emptyInvalidRecord rfl rfl

/-- C1: the module is total by construction (every Lean function here is),
each call returns a result tagged `isValid` true or false, and a message
matching neither the line/column nor the position pattern yields the safe
default `line 1, column 1, position 0`. -/
theorem locator_default_and_tagged (msg src : List Char)
    (hlc : firstLC msg = none) (hpos : firstPos msg = none) :
    parseJSONError msg src = ⟨1, 1, 0, msg⟩ ∧
    ∀ (src2 : List Char) (opts : Indentation),
      ((formatUntilError src2 opts).isValid = true ∨
        (formatUntilError src2 opts).isValid = false) ∧
      ((validateIncremental src2 opts).isValid = true ∨
        (validateIncremental src2 opts).isValid = false) := by
  refine ⟨?_, ?_⟩
  · unfold parseJSONError
    rw [hlc, hpos]
    simp
  · intro src2 opts
    constructor
    · cases formatUntilError src2 opts <;> simp [FormatResult.isValid]
    · cases validateIncremental src2 opts <;> simp [ValidateResult.isValid]

/-- Witness for C1: a message with neither pattern gives the safe default. -/
theorem locator_default_and_tagged_witness :
    firstLC "boom".data = none ∧ firstPos "boom".data = none ∧
    parseJSONError "boom".data "x".data = ⟨1, 1, 0, "boom".data⟩ := by
  exact ⟨rfl, rfl, (locator_default_and_tagged "boom".data "x".data rfl rfl).1⟩

/-- C2: `formatUntilError` is valid exactly when the reference parser
accepts, and then `formattedFull` is the reference pretty-print of the
parsed value with the configured indent unit. -/
theorem valid_iff_parser_accepts (src : List Char) (opts : Indentation) :
    ((formatUntilError src opts).isValid = true ↔ ∃ v, jsonParse src = .ok v) ∧
    ∀ v, jsonParse src = .ok v →
      formatUntilError src opts = .valid (renderValue (indentStrOf opts) v 0) := by
  constructor
  · constructor
    · intro h
      unfold formatUntilError at h
      cases hp : jsonParse src with
      | ok v => exact ⟨v, rfl⟩
      | error m =>
        rw [hp] at h
        simp [FormatResult.isValid] at h
    · rintro ⟨v, hv⟩
      unfold formatUntilError
      rw [hv]
      rfl
  · intro v hv
    unfold formatUntilError
    rw [hv]

/-- Witness for C2 on the valid input `1`. -/
theorem valid_iff_parser_accepts_witness :
    (formatUntilError "1".data Indentation.unset).isValid = true ∧
    formatUntilError "1".data Indentation.unset =
      .valid (renderValue (indentStrOf Indentation.unset) (.num ⟨['1'], rfl⟩) 0) := by
  have h := valid_iff_parser_accepts "1".data Indentation.unset
  exact ⟨h.1.mpr ⟨.num ⟨['1'], rfl⟩, rfl⟩, h.2 _ rfl⟩

/-- The JS split never returns an empty array. -/
theorem splitNl_ne_nil : ∀ cs : List Char, splitNl cs ≠ []
  | [] => by simp [splitNl]
  | c :: t => by
    unfold splitNl
    split_ifs
    · simp
    · cases h : splitNl t <;> simp

/-- C3 (counterexample): on message `position 5` over the two-character
source `ab`, the locator returns `position = 5`, which neither lies in
`[0, length(source)]` nor equals `clamp(5, 0, 2) = 2`; the clamp only
happens later, in the callers. -/
theorem locator_position_unclamped :
    (parseJSONError "position 5".data "ab".data).position = 5 ∧
    "ab".data.length = 2 ∧
    ¬(parseJSONError "position 5".data "ab".data).position ≤ "ab".data.length ∧
    (parseJSONError "position 5".data "ab".data).position ≠
      min 5 "ab".data.length := by decide

/-- C3 (amended): the locator keeps `line ≥ 1` and `column ≥ 1` except that
the line/column branch returns the message's own integers verbatim; the
returned position is the raw `P` of a `position P` pattern (unclamped), and
the clamp to `[0, length(source)]` is applied by the callers when they form
`errorIndex` (which therefore always lies in that interval). -/
theorem locator_range_and_position (msg src : List Char) :
    (firstLC msg = none →
      1 ≤ (parseJSONError msg src).line ∧ 1 ≤ (parseJSONError msg src).column) ∧
    (∀ l c, firstLC msg = some (l, c) →
      (parseJSONError msg src).line = l ∧ (parseJSONError msg src).column = c) ∧
    (∀ p, firstLC msg = none → firstPos msg = some p →
      (parseJSONError msg src).position = p) ∧
    min (parseJSONError msg src).position src.length ≤ src.length := by
  refine ⟨?_, ?_, ?_, Nat.min_le_right _ _⟩
  · intro hlc
    cases hp : firstPos msg with
    | none => simp [parseJSONError, hlc, hp]
    | some p =>
      simp only [parseJSONError, hlc, hp]
      split_ifs with h
      · refine ⟨?_, Nat.le_add_left 1 _⟩
        have hne := splitNl_ne_nil (src.take p)
        exact Nat.one_le_iff_ne_zero.mpr (fun hz => hne (List.length_eq_zero.mp hz))
      · exact ⟨le_refl 1, le_refl 1⟩
  · intro l c hlc
    simp [parseJSONError, hlc]
  · intro p hlc hpos
    simp only [parseJSONError, hlc, hpos]
    split_ifs <;> rfl

/-- Witness for the amended C3: message `position 7` over `ab\ncd` keeps the
raw position 7 (beyond the 5-character source) with `line ≥ 1`. -/
theorem locator_range_and_position_witness :
    firstLC "position 7".data = none ∧
    firstPos "position 7".data = some 7 ∧
    (parseJSONError "position 7".data "ab\ncd".data).position = 7 ∧
    1 ≤ (parseJSONError "position 7".data "ab\ncd".data).line := by
  have h := locator_range_and_position "position 7".data "ab\ncd".data
  exact ⟨rfl, rfl, h.2.2.1 7 rfl rfl, (h.1 rfl).1⟩

/-! ## Support lemmas for the codec round-trip -/

theorem char_ne_of_toNat {c d : Char} (h : c.toNat ≠ d.toNat) : c ≠ d :=
  fun hc => h (congrArg Char.toNat hc)

theorem jsonWs_toNat {c : Char} (h : jsonWs c = true) :
    c.toNat = 32 ∨ c.toNat = 9 ∨ c.toNat = 10 ∨ c.toNat = 13 := by
  simp only [jsonWs, Bool.or_eq_true, beq_iff_eq] at h
  rcases h with ((h | h) | h) | h <;> subst h <;> decide

theorem numChar_toNat {c : Char} (h : numChar c = true) :
    (48 ≤ c.toNat ∧ c.toNat ≤ 57) ∨ c.toNat = 45 ∨ c.toNat = 43 ∨
      c.toNat = 46 ∨ c.toNat = 101 ∨ c.toNat = 69 := by
  simp only [numChar, isDigit, Bool.or_eq_true, Bool.and_eq_true,
    decide_eq_true_eq] at h
  rcases h with ((((⟨h1, h2⟩ | h) | h) | h) | h) | h
  · exact Or.inl ⟨h1, h2⟩
  all_goals (subst h; decide)

theorem jsonWs_not_numChar {c : Char} (h : jsonWs c = true) : numChar c = false := by
  cases hn : numChar c with
  | false => rfl
  | true =>
    exfalso
    rcases jsonWs_toNat h with h1 | h1 | h1 | h1 <;>
      rcases numChar_toNat hn with h2 | h2 | h2 | h2 | h2 | h2 <;> omega

theorem isDigit_not_jsonWs {c : Char} (h : isDigit c = true) : jsonWs c = false := by
  simp only [isDigit, Bool.and_eq_true, decide_eq_true_eq] at h
  cases hw : jsonWs c with
  | false => rfl
  | true => exfalso; rcases jsonWs_toNat hw with h1 | h1 | h1 | h1 <;> omega

theorem skipJsonWs_cons_of_not {c : Char} (t : List Char) (h : jsonWs c = false) :
    skipJsonWs (c :: t) = c :: t := by
  simp [skipJsonWs, List.dropWhile_cons, h]

theorem skipJsonWs_append_ws (pre cs : List Char) (h : wsOnly pre = true) :
    skipJsonWs (pre ++ cs) = skipJsonWs cs := by
  induction pre with
  | nil => rfl
  | cons p ps ih =>
    simp only [wsOnly, List.all_cons, Bool.and_eq_true] at h
    rw [List.cons_append]
    show List.dropWhile jsonWs (p :: (ps ++ cs)) = skipJsonWs cs
    rw [List.dropWhile_cons, if_pos h.1]
    exact ih h.2

theorem takeWhile_append_all {p : Char → Bool} :
    ∀ (l r : List Char), l.all p = true → (l ++ r).takeWhile p = l ++ r.takeWhile p
  | [], _, _ => rfl
  | c :: l, r, h => by
    simp only [List.all_cons, Bool.and_eq_true] at h
    simp only [List.cons_append, List.takeWhile_cons, h.1, if_true]
    rw [takeWhile_append_all l r h.2]

theorem dropWhile_append_all {p : Char → Bool} :
    ∀ (l r : List Char), l.all p = true → (l ++ r).dropWhile p = r.dropWhile p
  | [], _, _ => rfl
  | c :: l, r, h => by
    simp only [List.all_cons, Bool.and_eq_true] at h
    simp only [List.cons_append, List.dropWhile_cons, h.1, if_true]
    exact dropWhile_append_all l r h.2

theorem takeWhile_eq_nil_of_headNotNum {r : List Char} (h : headNotNum r = true) :
    r.takeWhile numChar = [] ∧ r.dropWhile numChar = r := by
  cases r with
  | nil => exact ⟨rfl, rfl⟩
  | cons c t =>
    simp only [headNotNum, Bool.not_eq_true'] at h
    simp [List.takeWhile_cons, List.dropWhile_cons, h]

/-! ### Shape of a valid number token -/

theorem all_mono {p q : Char → Bool} {l : List Char} (h : l.all p = true)
    (himp : ∀ c, p c = true → q c = true) : l.all q = true := by
  simp only [List.all_eq_true] at h ⊢
  exact fun x hx => himp x (h x hx)

theorem exists_getLast_all {p : Char → Bool} {l : List Char} (hne : l ≠ [])
    (h : l.all p = true) : ∃ d, l.getLast? = some d ∧ p d = true :=
  ⟨l.getLast hne, List.getLast?_eq_getLast l hne,
    List.all_eq_true.mp h _ (List.getLast_mem hne)⟩

theorem digit_numChar {c : Char} (h : isDigit c = true) : numChar c = true := by
  simp [numChar, h]

theorem getLast?_cons_of_ne_nil {c : Char} {l : List Char} (h : l ≠ []) :
    (c :: l).getLast? = l.getLast? := by
  cases l with
  | nil => exact absurd rfl h
  | cons b t => exact List.getLast?_cons_cons

theorem chompIntPart_spec : ∀ {cs r : List Char}, chompIntPart cs = some r →
    ∃ pre, cs = pre ++ r ∧ pre ≠ [] ∧ pre.all isDigit = true := by
  intro cs r h
  cases cs with
  | nil => exact absurd h (by simp [chompIntPart])
  | cons c t =>
    simp only [chompIntPart] at h
    split_ifs at h with h0 h1
    · subst h0
      injection h with h
      exact ⟨['0'], by simp [h], by simp, by decide⟩
    · injection h with h
      refine ⟨c :: t.takeWhile isDigit, ?_, by simp, ?_⟩
      · rw [← h, List.cons_append, List.takeWhile_append_dropWhile]
      · simp only [List.all_cons, Bool.and_eq_true]
        exact ⟨by simp [isDigit]; omega, List.all_takeWhile⟩

theorem chompFracPart_spec : ∀ {cs r : List Char}, chompFracPart cs = some r →
    cs = r ∨ ∃ pre, cs = pre ++ r ∧ pre ≠ [] ∧ pre.all numChar = true ∧
      ∃ d, pre.getLast? = some d ∧ isDigit d = true := by
  intro cs r h
  cases cs with
  | nil =>
    injection h with h
    exact Or.inl h
  | cons c t =>
    simp only [chompFracPart] at h
    split_ifs at h with hdot
    · subst hdot
      cases t with
      | nil => exact absurd h (by simp)
      | cons d t2 =>
        cases hd : isDigit d with
        | false => simp [hd] at h
        | true =>
          simp only [hd, if_true] at h
          have htw : (d :: t2).takeWhile isDigit ≠ [] := by
            rw [List.takeWhile_cons, if_pos hd]
            simp
          refine Or.inr ⟨'.' :: (d :: t2).takeWhile isDigit, ?_, by simp, ?_, ?_⟩
          · rw [← Option.some.inj h, List.cons_append, List.takeWhile_append_dropWhile]
          · simp only [List.all_cons, Bool.and_eq_true]
            exact ⟨by decide, all_mono List.all_takeWhile (fun c2 hc2 => digit_numChar hc2)⟩
          · obtain ⟨d2, hd2, hdig⟩ := exists_getLast_all htw List.all_takeWhile
            exact ⟨d2, by rw [getLast?_cons_of_ne_nil htw, hd2], hdig⟩
    · injection h with h
      exact Or.inl h

theorem chompExpPart_spec : ∀ {cs r : List Char}, chompExpPart cs = some r →
    cs = r ∨ ∃ pre, cs = pre ++ r ∧ pre ≠ [] ∧ pre.all numChar = true ∧
      ∃ d, pre.getLast? = some d ∧ isDigit d = true := by
  intro cs r h
  cases cs with
  | nil =>
    injection h with h
    exact Or.inl h
  | cons c t =>
    simp only [chompExpPart] at h
    split_ifs at h with he
    · have hc : numChar c = true := by
        rcases he with he | he <;> subst he <;> decide
      cases t with
      | nil => simp at h
      | cons s t2 =>
        by_cases hs : s = '+' ∨ s = '-'
        · simp only [hs, if_true] at h
          cases t2 with
          | nil => simp at h
          | cons d t3 =>
            cases hd : isDigit d with
            | false => simp [hd] at h
            | true =>
              simp only [hd, if_true, Option.some.injEq] at h
              have htw : (d :: t3).takeWhile isDigit ≠ [] := by
                rw [List.takeWhile_cons, if_pos hd]
                simp
              refine Or.inr ⟨c :: s :: (d :: t3).takeWhile isDigit, ?_, by simp, ?_, ?_⟩
              · rw [← h]
                simp only [List.cons_append]
                rw [List.takeWhile_append_dropWhile]
              · simp only [List.all_cons, Bool.and_eq_true]
                refine ⟨hc, ?_, all_mono List.all_takeWhile (fun x hx => digit_numChar hx)⟩
                rcases hs with hs | hs <;> subst hs <;> decide
              · obtain ⟨d2, hd2, hdig⟩ := exists_getLast_all htw List.all_takeWhile
                refine ⟨d2, ?_, hdig⟩
                rw [getLast?_cons_of_ne_nil (by simp), getLast?_cons_of_ne_nil htw, hd2]
        · simp only [hs, if_false] at h
          cases hd : isDigit s with
          | false => simp [hd] at h
          | true =>
            simp only [hd, if_true, Option.some.injEq] at h
            have htw : (s :: t2).takeWhile isDigit ≠ [] := by
              rw [List.takeWhile_cons, if_pos hd]
              simp
            refine Or.inr ⟨c :: (s :: t2).takeWhile isDigit, ?_, by simp, ?_, ?_⟩
            · rw [← h, List.cons_append, List.takeWhile_append_dropWhile]
            · simp only [List.all_cons, Bool.and_eq_true]
              exact ⟨hc, all_mono List.all_takeWhile (fun x hx => digit_numChar hx)⟩
            · obtain ⟨d2, hd2, hdig⟩ := exists_getLast_all htw List.all_takeWhile
              exact ⟨d2, by rw [getLast?_cons_of_ne_nil htw, hd2], hdig⟩
    · injection h with h
      exact Or.inl h

/-- The body of `validNumberToken` after the optional sign: the unsigned part
is all number characters, starts with a digit, and ends with a digit. -/
theorem numBody_shape : ∀ cs1 : List Char,
    (match chompIntPart cs1 with
     | none => false
     | some cs2 =>
       match chompFracPart cs2 with
       | none => false
       | some cs3 =>
         match chompExpPart cs3 with
         | none => false
         | some cs4 => cs4.isEmpty) = true →
    cs1.all numChar = true ∧
    (∃ c t, cs1 = c :: t ∧ isDigit c = true) ∧
    ∃ d, cs1.getLast? = some d ∧ isDigit d = true := by
  intro cs1 h1
  cases hint : chompIntPart cs1 with
  | none => simp [hint] at h1
  | some cs2 =>
    simp only [hint] at h1
    cases hfrac : chompFracPart cs2 with
    | none => simp [hfrac] at h1
    | some cs3 =>
      simp only [hfrac] at h1
      cases hexp : chompExpPart cs3 with
      | none => simp [hexp] at h1
      | some cs4 =>
        simp only [hexp] at h1
        simp only [List.isEmpty_iff] at h1
        subst h1
        obtain ⟨p1, he1, hne1, hd1⟩ := chompIntPart_spec hint
        have hp1num : p1.all numChar = true :=
          all_mono hd1 (fun x hx => digit_numChar hx)
        obtain ⟨dl1, hdl1, hddig1⟩ := exists_getLast_all hne1 hd1
        have hfr : ∃ p2, cs2 = p2 ++ cs3 ∧ p2.all numChar = true ∧
            (p2 = [] ∨ ∃ d, p2.getLast? = some d ∧ isDigit d = true) := by
          rcases chompFracPart_spec hfrac with hfr | ⟨p2, hfr, _, hnum2, dl2, hdl2, hddig2⟩
          · exact ⟨[], by simpa using hfr, rfl, Or.inl rfl⟩
          · exact ⟨p2, hfr, hnum2, Or.inr ⟨dl2, hdl2, hddig2⟩⟩
        have hex : cs3.all numChar = true ∧
            (cs3 = [] ∨ ∃ d, cs3.getLast? = some d ∧ isDigit d = true) := by
          rcases chompExpPart_spec hexp with hex | ⟨p3, hex, _, hnum3, dl3, hdl3, hddig3⟩
          · subst hex
            exact ⟨rfl, Or.inl rfl⟩
          · rw [List.append_nil] at hex
            subst hex
            exact ⟨hnum3, Or.inr ⟨dl3, hdl3, hddig3⟩⟩
        obtain ⟨hnum3, hlast3⟩ := hex
        obtain ⟨p2, hp2, hnum2, hlast2⟩ := hfr
        subst hp2
        subst he1
        refine ⟨?_, ?_, ?_⟩
        · simp only [List.all_append, Bool.and_eq_true]
          exact ⟨hp1num, hnum2, hnum3⟩
        · obtain ⟨hc, p1t, hp1⟩ := List.exists_cons_of_ne_nil hne1
          refine ⟨hc, p1t ++ (p2 ++ cs3), by rw [hp1, List.cons_append], ?_⟩
          exact List.all_eq_true.mp hd1 hc (by rw [hp1]; exact List.mem_cons_self ..)
        · rw [List.getLast?_append, List.getLast?_append]
          rcases hlast3 with rfl | ⟨d3, hd3, hdig3⟩
          · rcases hlast2 with rfl | ⟨d2, hd2, hdig2⟩
            · exact ⟨dl1, by simp [hdl1], hddig1⟩
            · exact ⟨d2, by simp [hd2], hdig2⟩
          · exact ⟨d3, by simp [hd3], hdig3⟩

/-- Everything the round-trip needs about a valid number token: it is made of
number characters, starts with a digit or a minus sign, and ends in a digit. -/
theorem numToken_shape : ∀ {cs : List Char}, validNumberToken cs = true →
    cs.all numChar = true ∧
    (∃ c t, cs = c :: t ∧ (isDigit c = true ∨ c = '-')) ∧
    ∃ d, cs.getLast? = some d ∧ isDigit d = true := by
  intro cs h
  unfold validNumberToken at h
  cases cs with
  | nil => simp [chompIntPart] at h
  | cons c t =>
    by_cases hm : c = '-'
    · subst hm
      simp only [if_pos rfl] at h
      obtain ⟨hall, ⟨c2, t2, ht, _⟩, dl, hdl, hdig⟩ := numBody_shape t h
      refine ⟨?_, ⟨'-', t, rfl, Or.inr rfl⟩, ?_⟩
      · simp only [List.all_cons, Bool.and_eq_true]
        exact ⟨by decide, hall⟩
      · have htne : t ≠ [] := by rw [ht]; simp
        exact ⟨dl, by rw [getLast?_cons_of_ne_nil htne, hdl], hdig⟩
    · simp only [if_neg hm] at h
      obtain ⟨hall, ⟨c2, t2, ht, hdig2⟩, dl, hdl, hdig⟩ := numBody_shape (c :: t) h
      refine ⟨hall, ⟨c, t, rfl, ?_⟩, dl, hdl, hdig⟩
      obtain ⟨rfl, -⟩ : c2 = c ∧ t2 = t := by
        constructor <;> injection ht.symm
      exact Or.inl hdig2

/-- Scanning a rendered number token out of a non-extending continuation
recovers exactly that token. -/
theorem parseNumberToken_render (tok : NumToken) (rest : List Char)
    (hr : headNotNum rest = true) :
    parseNumberToken (tok.val ++ rest) = .ok (.num tok, rest) := by
  obtain ⟨hall, -, -⟩ := numToken_shape tok.property
  have ht : (tok.val ++ rest).takeWhile numChar = tok.val := by
    rw [takeWhile_append_all _ _ hall, (takeWhile_eq_nil_of_headNotNum hr).1,
      List.append_nil]
  have hd : (tok.val ++ rest).dropWhile numChar = rest := by
    rw [dropWhile_append_all _ _ hall, (takeWhile_eq_nil_of_headNotNum hr).2]
  simp only [parseNumberToken, ht, hd]
  rw [dif_pos tok.property]

/-! ### String tokens round-trip through the unescaper -/

theorem escBody_cons (c : Char) (t : List Char) :
    escBody (c :: t) = escapeChar c ++ escBody t := rfl

theorem hexDigitVal_toHexDigit : ∀ n, n < 16 → hexDigitVal (toHexDigit n) = some n := by
  decide

theorem parseStringBody_cons_plain {c : Char} (h1 : c ≠ '"') (h2 : c ≠ '\\')
    (rest : List Char) :
    parseStringBody (c :: rest) =
      if c.toNat < 0x20 then .error (.badControlChar, rest.length + 1)
      else (parseStringBody rest).map (fun p => (c :: p.1, p.2)) := by
  rw [parseStringBody.eq_def]
  split
  · rename_i heq
    exact absurd heq (by simp)
  · rename_i heq
    injection heq with heq
    exact absurd heq h1
  · rename_i heq
    injection heq with heq
    exact absurd heq h2
  · rename_i heq
    injection heq with heq
    exact absurd heq h2
  · rename_i c2 r2 heq
    injection heq with heq1 heq2
    subst heq1
    subst heq2
    rfl

theorem parseStringBody_render : ∀ (s rest : List Char),
    parseStringBody (escBody s ++ '"' :: rest) = .ok (s, rest)
  | [], _ => rfl
  | c :: t, rest => by
    have ih := parseStringBody_render t rest
    by_cases h1 : c = '"'
    · subst h1
      show (parseStringBody (escBody t ++ '"' :: rest)).map
        (fun p => ('"' :: p.1, p.2)) = _
      rw [ih]
      rfl
    · by_cases h2 : c = '\\'
      · subst h2
        show (parseStringBody (escBody t ++ '"' :: rest)).map
          (fun p => ('\\' :: p.1, p.2)) = _
        rw [ih]
        rfl
      · by_cases h3 : c = '\x08'
        · subst h3
          show (parseStringBody (escBody t ++ '"' :: rest)).map
            (fun p => ('\x08' :: p.1, p.2)) = _
          rw [ih]
          rfl
        · by_cases h4 : c = '\x0c'
          · subst h4
            show (parseStringBody (escBody t ++ '"' :: rest)).map
              (fun p => ('\x0c' :: p.1, p.2)) = _
            rw [ih]
            rfl
          · by_cases h5 : c = '\n'
            · subst h5
              show (parseStringBody (escBody t ++ '"' :: rest)).map
                (fun p => ('\n' :: p.1, p.2)) = _
              rw [ih]
              rfl
            · by_cases h6 : c = '\r'
              · subst h6
                show (parseStringBody (escBody t ++ '"' :: rest)).map
                  (fun p => ('\r' :: p.1, p.2)) = _
                rw [ih]
                rfl
              · by_cases h7 : c = '\t'
                · subst h7
                  show (parseStringBody (escBody t ++ '"' :: rest)).map
                    (fun p => ('\t' :: p.1, p.2)) = _
                  rw [ih]
                  rfl
                · by_cases hctl : c.toNat < 0x20
                  · rw [escBody_cons,
                      show escapeChar c = ['\\', 'u', '0', '0',
                        toHexDigit (c.toNat / 16), toHexDigit (c.toNat % 16)] by
                          simp [escapeChar, h1, h2, h3, h4, h5, h6, h7, hctl],
                      List.append_assoc]
                    show (match hexDigitVal '0', hexDigitVal '0',
                        hexDigitVal (toHexDigit (c.toNat / 16)),
                        hexDigitVal (toHexDigit (c.toNat % 16)) with
                      | some va, some vb, some vc, some vd =>
                        (parseStringBody (escBody t ++ '"' :: rest)).map
                          (fun (p : List Char × List Char) =>
                            (Char.ofNat (((va * 16 + vb) * 16 + vc) * 16 + vd) :: p.1, p.2))
                      | _, _, _, _ =>
                        Except.error (ParseErrKind.badEscape,
                          (escBody t ++ '"' :: rest).length + 4)) = _
                    rw [hexDigitVal_toHexDigit (c.toNat / 16) (by omega),
                      hexDigitVal_toHexDigit (c.toNat % 16) (by omega)]
                    show (parseStringBody (escBody t ++ '"' :: rest)).map
                      (fun (p : List Char × List Char) =>
                        (Char.ofNat (((0 * 16 + 0) * 16 + c.toNat / 16) * 16 + c.toNat % 16)
                          :: p.1, p.2)) = _
                    rw [show ((0 * 16 + 0) * 16 + c.toNat / 16) * 16 + c.toNat % 16
                        = c.toNat by omega,
                      Char.ofNat_toNat, ih]
                    rfl
                  · rw [escBody_cons,
                      show escapeChar c = [c] by
                        simp [escapeChar, h1, h2, h3, h4, h5, h6, h7, hctl],
                      List.singleton_append, List.cons_append,
                      parseStringBody_cons_plain h1 h2, if_neg hctl, ih]
                    rfl

/-! ### Heads and whitespace shapes of rendered output -/

theorem indentRep_wsOnly {gap : List Char} (h : wsOnly gap = true) :
    ∀ n, wsOnly (indentRep gap n) = true
  | 0 => rfl
  | n + 1 => by
    simp only [indentRep, wsOnly, List.all_append, Bool.and_eq_true]
    exact ⟨h, indentRep_wsOnly h n⟩

theorem nlIndent_wsOnly {gap : List Char} (h : wsOnly gap = true) (d : Nat) :
    wsOnly (nlIndent gap d) = true := by
  unfold nlIndent
  split_ifs
  · rfl
  · simp only [wsOnly, List.all_cons, Bool.and_eq_true]
    exact ⟨by decide, indentRep_wsOnly h d⟩

theorem digit_facts {c : Char} (h : isDigit c = true) :
    jsonWs c = false ∧ c ≠ ']' ∧ c ≠ '}' ∧ c ≠ '{' ∧ c ≠ '[' ∧ c ≠ '"' ∧
      c ≠ 't' ∧ c ≠ 'f' ∧ c ≠ 'n' := by
  have hb : 48 ≤ c.toNat ∧ c.toNat ≤ 57 := by
    simpa [isDigit, Bool.and_eq_true, decide_eq_true_eq] using h
  refine ⟨isDigit_not_jsonWs h, ?_, ?_, ?_, ?_, ?_, ?_, ?_, ?_⟩ <;>
    exact char_ne_of_toNat (fun he => absurd (he ▸ hb) (by decide))

theorem renderValue_head (gap : List Char) (v : JsonValue) (d : Nat) :
    ∃ c t, renderValue gap v d = c :: t ∧ jsonWs c = false ∧ c ≠ ']' ∧ c ≠ '}' := by
  cases v with
  | null => exact ⟨'n', _, rfl, by decide, by decide, by decide⟩
  | bool b =>
    cases b with
    | false => exact ⟨'f', _, rfl, by decide, by decide, by decide⟩
    | true => exact ⟨'t', _, rfl, by decide, by decide, by decide⟩
  | num tok =>
    obtain ⟨-, ⟨c, t, htok, hd⟩, -⟩ := numToken_shape tok.property
    refine ⟨c, t, ?_, ?_, ?_, ?_⟩
    · rw [show renderValue gap (.num tok) d = tok.val from rfl, htok]
    · rcases hd with hd | rfl
      · exact isDigit_not_jsonWs hd
      · decide
    · rcases hd with hd | rfl
      · exact (digit_facts hd).2.1
      · decide
    · rcases hd with hd | rfl
      · exact (digit_facts hd).2.2.1
      · decide
  | str s => exact ⟨'"', _, rfl, by decide, by decide, by decide⟩
  | arr es =>
    cases es with
    | nil => exact ⟨'[', _, rfl, by decide, by decide, by decide⟩
    | cons e es2 => exact ⟨'[', _, rfl, by decide, by decide, by decide⟩
  | obj ms =>
    cases ms with
    | nil => exact ⟨'{', _, rfl, by decide, by decide, by decide⟩
    | cons m ms2 => exact ⟨'{', _, rfl, by decide, by decide, by decide⟩

theorem renderValue_length_pos (gap : List Char) (v : JsonValue) (d : Nat) :
    1 ≤ (renderValue gap v d).length := by
  obtain ⟨c, t, hr, -, -, -⟩ := renderValue_head gap v d
  rw [hr]
  simp

theorem skipJsonWs_pre_cons (pre : List Char) {c : Char} (t : List Char)
    (hpre : wsOnly pre = true) (hc : jsonWs c = false) :
    skipJsonWs (pre ++ c :: t) = c :: t := by
  rw [skipJsonWs_append_ws _ _ hpre, skipJsonWs_cons_of_not _ hc]

theorem skipJsonWs_render (gap : List Char) (v : JsonValue) (d : Nat) (x : List Char) :
    skipJsonWs (renderValue gap v d ++ x) = renderValue gap v d ++ x := by
  obtain ⟨c, t, hr, hws, -, -⟩ := renderValue_head gap v d
  rw [hr, List.cons_append, skipJsonWs_cons_of_not _ hws]

theorem quoteStr_append (k Y : List Char) :
    quoteStr k ++ Y = '"' :: (escBody k ++ '"' :: Y) := by
  simp [quoteStr]

theorem colonSep_eq (gap : List Char) :
    colonSep gap = ':' :: (if gap.isEmpty then [] else [' ']) := by
  unfold colonSep
  split_ifs <;> rfl

theorem colonTail_wsOnly (gap : List Char) :
    wsOnly (if gap.isEmpty then ([] : List Char) else [' ']) = true := by
  split_ifs <;> decide

theorem colonSep_length (gap : List Char) :
    1 ≤ (colonSep gap).length ∧ (colonSep gap).length ≤ 2 := by
  unfold colonSep
  split_ifs <;> simp

theorem headNotNum_sep {X : List Char} {c : Char} (hws : wsOnly X = true)
    (hc : numChar c = false) (rest : List Char) :
    headNotNum (X ++ c :: rest) = true := by
  cases X with
  | nil => simp [headNotNum, hc]
  | cons x xs =>
    simp only [wsOnly, List.all_cons, Bool.and_eq_true] at hws
    simp [headNotNum, jsonWs_not_numChar hws.1]

/-! ### One-step unfoldings of the parser at successor fuel (definitional) -/

theorem parseValue_step (fuel : Nat) (cs : List Char) :
    parseValue (fuel + 1) cs =
      (match skipJsonWs cs with
       | [] => .error (.endOfInput, 0)
       | c :: t =>
         if c = '{' then
           match skipJsonWs t with
           | [] => .error (.endOfInput, 0)
           | c2 :: t2 =>
             if c2 = '}' then .ok (.obj [], t2)
             else (parseMembersFrom fuel (c2 :: t2)).map (fun p => (.obj p.1, p.2))
         else if c = '[' then
           match skipJsonWs t with
           | [] => .error (.endOfInput, 0)
           | c2 :: t2 =>
             if c2 = ']' then .ok (.arr [], t2)
             else (parseItemsFrom fuel (c2 :: t2)).map (fun p => (.arr p.1, p.2))
         else if c = '"' then
           (parseStringBody t).map (fun p => (.str p.1, p.2))
         else if c = 't' then
           match t with
           | 'r' :: 'u' :: 'e' :: r => .ok (.bool true, r)
           | _ => .error (.unexpectedChar c, t.length + 1)
         else if c = 'f' then
           match t with
           | 'a' :: 'l' :: 's' :: 'e' :: r => .ok (.bool false, r)
           | _ => .error (.unexpectedChar c, t.length + 1)
         else if c = 'n' then
           match t with
           | 'u' :: 'l' :: 'l' :: r => .ok (.null, r)
           | _ => .error (.unexpectedChar c, t.length + 1)
         else if isDigit c || c = '-' then parseNumberToken (c :: t)
         else .error (.unexpectedChar c, t.length + 1)) := rfl

theorem parseMembersFrom_step (fuel : Nat) (cs : List Char) :
    parseMembersFrom (fuel + 1) cs =
      (match skipJsonWs cs with
       | '"' :: t =>
         match parseStringBody t with
         | .error e => .error e
         | .ok (k, r1) =>
           match skipJsonWs r1 with
           | ':' :: r2 =>
             match parseValue fuel r2 with
             | .error e => .error e
             | .ok (v, r3) =>
               match skipJsonWs r3 with
               | ',' :: r4 => (parseMembersFrom fuel r4).map (fun p => ((k, v) :: p.1, p.2))
               | '}' :: r4 => .ok ([(k, v)], r4)
               | [] => .error (.endOfInput, 0)
               | c :: t2 => .error (.unexpectedChar c, t2.length + 1)
           | [] => .error (.endOfInput, 0)
           | c :: t2 => .error (.unexpectedChar c, t2.length + 1)
       | [] => .error (.endOfInput, 0)
       | c :: t2 => .error (.unexpectedChar c, t2.length + 1)) := rfl

theorem parseItemsFrom_step (fuel : Nat) (cs : List Char) :
    parseItemsFrom (fuel + 1) cs =
      (match parseValue fuel cs with
       | .error e => .error e
       | .ok (v, r) =>
         match skipJsonWs r with
         | ',' :: r2 => (parseItemsFrom fuel r2).map (fun p => (v :: p.1, p.2))
         | ']' :: r2 => .ok ([v], r2)
         | [] => .error (.endOfInput, 0)
         | c :: t2 => .error (.unexpectedChar c, t2.length + 1)) := rfl

/-- The parser's number branch, isolated: a head that is a digit or minus and
matches none of the structural openers goes to the token scanner. -/
theorem parseValue_num_branch (fuel : Nat) (pre : List Char) {c : Char} (t : List Char)
    (hpre : wsOnly pre = true) (hws : jsonWs c = false)
    (h1 : c ≠ '{') (h2 : c ≠ '[') (h3 : c ≠ '"') (h4 : c ≠ 't') (h5 : c ≠ 'f')
    (h6 : c ≠ 'n') (h7 : (isDigit c || c = '-') = true) :
    parseValue (fuel + 1) (pre ++ c :: t) = parseNumberToken (c :: t) := by
  rw [parseValue_step, skipJsonWs_pre_cons pre _ hpre hws]
  show (if c = '{' then
      match skipJsonWs t with
      | [] => Except.error (ParseErrKind.endOfInput, 0)
      | c2 :: t2 =>
        if c2 = '}' then .ok (.obj [], t2)
        else (parseMembersFrom fuel (c2 :: t2)).map (fun p => (.obj p.1, p.2))
    else if c = '[' then
      match skipJsonWs t with
      | [] => Except.error (ParseErrKind.endOfInput, 0)
      | c2 :: t2 =>
        if c2 = ']' then .ok (.arr [], t2)
        else (parseItemsFrom fuel (c2 :: t2)).map (fun p => (.arr p.1, p.2))
    else if c = '"' then
      (parseStringBody t).map (fun p => (.str p.1, p.2))
    else if c = 't' then
      match t with
      | 'r' :: 'u' :: 'e' :: r => .ok (.bool true, r)
      | _ => Except.error (.unexpectedChar c, t.length + 1)
    else if c = 'f' then
      match t with
      | 'a' :: 'l' :: 's' :: 'e' :: r => .ok (.bool false, r)
      | _ => Except.error (.unexpectedChar c, t.length + 1)
    else if c = 'n' then
      match t with
      | 'u' :: 'l' :: 'l' :: r => .ok (.null, r)
      | _ => Except.error (.unexpectedChar c, t.length + 1)
    else if isDigit c || c = '-' then parseNumberToken (c :: t)
    else Except.error (.unexpectedChar c, t.length + 1)) = parseNumberToken (c :: t)
  rw [if_neg h1, if_neg h2, if_neg h3, if_neg h4, if_neg h5, if_neg h6, if_pos h7]

/-- The parser's object branch, isolated: after the brace, a non-brace head
goes to the member loop. -/
theorem parseValue_obj_branch (fuel : Nat) (pre t : List Char) {c2 : Char}
    (t2 : List Char) (hpre : wsOnly pre = true)
    (hskip : skipJsonWs t = c2 :: t2) (hne : c2 ≠ '}') :
    parseValue (fuel + 1) (pre ++ '{' :: t) =
      (parseMembersFrom fuel (c2 :: t2)).map (fun p => (.obj p.1, p.2)) := by
  rw [parseValue_step, skipJsonWs_pre_cons pre _ hpre (by decide)]
  show (match skipJsonWs t with
    | [] => Except.error (ParseErrKind.endOfInput, 0)
    | c2 :: t2 =>
      if c2 = '}' then Except.ok (JsonValue.obj [], t2)
      else (parseMembersFrom fuel (c2 :: t2)).map
        (fun (p : List (List Char × JsonValue) × List Char) =>
          (JsonValue.obj p.1, p.2))) = _
  rw [hskip]
  show (if c2 = '}' then Except.ok (JsonValue.obj [], t2)
    else (parseMembersFrom fuel (c2 :: t2)).map
      (fun (p : List (List Char × JsonValue) × List Char) =>
        (JsonValue.obj p.1, p.2))) = _
  rw [if_neg hne]

/-- The parser's array branch, isolated. -/
theorem parseValue_arr_branch (fuel : Nat) (pre t : List Char) {c2 : Char}
    (t2 : List Char) (hpre : wsOnly pre = true)
    (hskip : skipJsonWs t = c2 :: t2) (hne : c2 ≠ ']') :
    parseValue (fuel + 1) (pre ++ '[' :: t) =
      (parseItemsFrom fuel (c2 :: t2)).map (fun p => (.arr p.1, p.2)) := by
  rw [parseValue_step, skipJsonWs_pre_cons pre _ hpre (by decide)]
  show (match skipJsonWs t with
    | [] => Except.error (ParseErrKind.endOfInput, 0)
    | c2 :: t2 =>
      if c2 = ']' then Except.ok (JsonValue.arr [], t2)
      else (parseItemsFrom fuel (c2 :: t2)).map
        (fun (p : List JsonValue × List Char) => (JsonValue.arr p.1, p.2))) = _
  rw [hskip]
  show (if c2 = ']' then Except.ok (JsonValue.arr [], t2)
    else (parseItemsFrom fuel (c2 :: t2)).map
      (fun (p : List JsonValue × List Char) => (JsonValue.arr p.1, p.2))) = _
  rw [if_neg hne]

/-! ### Unfoldings of the renderer (definitional) -/

theorem renderItems_single (gap : List Char) (e : JsonValue) (d : Nat) :
    renderItems gap [e] d = renderValue gap e d := rfl

theorem renderItems_cons2 (gap : List Char) (e e2 : JsonValue) (es : List JsonValue)
    (d : Nat) :
    renderItems gap (e :: e2 :: es) d =
      renderValue gap e d ++ ',' :: nlIndent gap d ++ renderItems gap (e2 :: es) d := rfl

theorem renderMembers_single (gap k : List Char) (v : JsonValue) (d : Nat) :
    renderMembers gap [(k, v)] d =
      quoteStr k ++ colonSep gap ++ renderValue gap v d := rfl

theorem renderMembers_cons2 (gap k : List Char) (v : JsonValue) (k2 : List Char)
    (v2 : JsonValue) (ms : List (List Char × JsonValue)) (d : Nat) :
    renderMembers gap ((k, v) :: (k2, v2) :: ms) d =
      quoteStr k ++ colonSep gap ++ renderValue gap v d ++
        ',' :: nlIndent gap d ++ renderMembers gap ((k2, v2) :: ms) d := rfl

theorem renderValue_arr_cons (gap : List Char) (e : JsonValue) (es : List JsonValue)
    (d : Nat) :
    renderValue gap (.arr (e :: es)) d =
      '[' :: nlIndent gap (d + 1) ++ renderItems gap (e :: es) (d + 1) ++
        nlIndent gap d ++ [']'] := rfl

theorem renderValue_obj_cons (gap k : List Char) (v : JsonValue)
    (ms : List (List Char × JsonValue)) (d : Nat) :
    renderValue gap (.obj ((k, v) :: ms)) d =
      '{' :: nlIndent gap (d + 1) ++ renderMembers gap ((k, v) :: ms) (d + 1) ++
        nlIndent gap d ++ ['}'] := rfl

theorem renderMembers_head (gap k : List Char) (v : JsonValue)
    (ms : List (List Char × JsonValue)) (d : Nat) :
    ∃ t, renderMembers gap ((k, v) :: ms) d = '"' :: t := by
  cases ms with
  | nil =>
    exact ⟨_, by rw [renderMembers_single, List.append_assoc, quoteStr_append]⟩
  | cons m2 ms2 =>
    obtain ⟨k2, v2⟩ := m2
    refine ⟨escBody k ++ '"' :: (colonSep gap ++ (renderValue gap v d ++
      (',' :: (nlIndent gap d ++ renderMembers gap ((k2, v2) :: ms2) d)))), ?_⟩
    rw [renderMembers_cons2]
    simp only [List.append_assoc, List.cons_append]
    rw [quoteStr_append]

theorem renderItems_head_ws (gap : List Char) (e : JsonValue) (es : List JsonValue)
    (d : Nat) :
    ∃ c t, renderItems gap (e :: es) d = c :: t ∧ jsonWs c = false ∧ c ≠ ']' := by
  obtain ⟨c, t, hr, hws, hne, -⟩ := renderValue_head gap e d
  cases es with
  | nil => exact ⟨c, t, by rw [renderItems_single, hr], hws, hne⟩
  | cons e2 es2 =>
    refine ⟨c, t ++ (',' :: (nlIndent gap d ++ renderItems gap (e2 :: es2) d)),
      ?_, hws, hne⟩
    rw [renderItems_cons2, hr]
    simp only [List.append_assoc, List.cons_append]

theorem headNotNum_cons {c : Char} (h : numChar c = false) (t : List Char) :
    headNotNum (c :: t) = true := by
  simp [headNotNum, h]

theorem skipJsonWs_colon (t : List Char) : skipJsonWs (':' :: t) = ':' :: t :=
  skipJsonWs_cons_of_not t (by decide)

theorem skipJsonWs_comma (t : List Char) : skipJsonWs (',' :: t) = ',' :: t :=
  skipJsonWs_cons_of_not t (by decide)

theorem skipJsonWs_closeBrace (t : List Char) : skipJsonWs ('}' :: t) = '}' :: t :=
  skipJsonWs_cons_of_not t (by decide)

theorem skipJsonWs_closeBracket (t : List Char) : skipJsonWs (']' :: t) = ']' :: t :=
  skipJsonWs_cons_of_not t (by decide)

/-! ### The codec round-trip, by mutual induction on the value -/

mutual
theorem rt_val : ∀ (v : JsonValue) (gap : List Char) (d : Nat) (pre rest : List Char)
    (fuel : Nat), wsOnly gap = true → wsOnly pre = true → headNotNum rest = true →
    (renderValue gap v d).length < fuel →
    parseValue fuel (pre ++ (renderValue gap v d ++ rest)) = .ok (v, rest)
  | .null, gap, d, pre, rest, fuel, hg, hp, hr, hf => by
    cases fuel with
    | zero => exact absurd hf (by omega)
    | succ f =>
      rw [show renderValue gap .null d = ['n', 'u', 'l', 'l'] from rfl,
        show (['n', 'u', 'l', 'l'] : List Char) ++ rest
          = 'n' :: 'u' :: 'l' :: 'l' :: rest from rfl,
        parseValue_step, skipJsonWs_pre_cons pre _ hp (by decide)]
      rfl
  | .bool true, gap, d, pre, rest, fuel, hg, hp, hr, hf => by
    cases fuel with
    | zero => exact absurd hf (by omega)
    | succ f =>
      rw [show renderValue gap (.bool true) d = ['t', 'r', 'u', 'e'] from rfl,
        show (['t', 'r', 'u', 'e'] : List Char) ++ rest
          = 't' :: 'r' :: 'u' :: 'e' :: rest from rfl,
        parseValue_step, skipJsonWs_pre_cons pre _ hp (by decide)]
      rfl
  | .bool false, gap, d, pre, rest, fuel, hg, hp, hr, hf => by
    cases fuel with
    | zero => exact absurd hf (by omega)
    | succ f =>
      rw [show renderValue gap (.bool false) d = ['f', 'a', 'l', 's', 'e'] from rfl,
        show (['f', 'a', 'l', 's', 'e'] : List Char) ++ rest
          = 'f' :: 'a' :: 'l' :: 's' :: 'e' :: rest from rfl,
        parseValue_step, skipJsonWs_pre_cons pre _ hp (by decide)]
      rfl
  | .str s, gap, d, pre, rest, fuel, hg, hp, hr, hf => by
    cases fuel with
    | zero => exact absurd hf (by omega)
    | succ f =>
      rw [show renderValue gap (.str s) d = quoteStr s from rfl, quoteStr_append,
        parseValue_step, skipJsonWs_pre_cons pre _ hp (by decide)]
      show (parseStringBody (escBody s ++ '"' :: rest)).map
        (fun (p : List Char × List Char) => (JsonValue.str p.1, p.2)) = _
      rw [parseStringBody_render]
      rfl
  | .num tok, gap, d, pre, rest, fuel, hg, hp, hr, hf => by
    cases fuel with
    | zero => exact absurd hf (by omega)
    | succ f =>
      obtain ⟨-, ⟨c, t, htok, hd⟩, -⟩ := numToken_shape tok.property
      rw [show renderValue gap (.num tok) d = tok.val from rfl, htok, List.cons_append]
      rcases hd with hd | rfl
      · obtain ⟨hws, -, -, h1, h2, h3, h4, h5, h6⟩ := digit_facts hd
        rw [parseValue_num_branch f pre _ hp hws h1 h2 h3 h4 h5 h6 (by simp [hd]),
          show c :: (t ++ rest) = tok.val ++ rest by rw [htok, List.cons_append]]
        exact parseNumberToken_render tok rest hr
      · rw [parseValue_num_branch f pre _ hp (by decide) (by decide) (by decide)
            (by decide) (by decide) (by decide) (by decide) (by decide),
          show '-' :: (t ++ rest) = tok.val ++ rest by rw [htok, List.cons_append]]
        exact parseNumberToken_render tok rest hr
  | .arr [], gap, d, pre, rest, fuel, hg, hp, hr, hf => by
    cases fuel with
    | zero => exact absurd hf (by omega)
    | succ f =>
      rw [show renderValue gap (.arr []) d = ['[', ']'] from rfl,
        show (['[', ']'] : List Char) ++ rest = '[' :: ']' :: rest from rfl,
        parseValue_step, skipJsonWs_pre_cons pre _ hp (by decide)]
      rfl
  | .obj [], gap, d, pre, rest, fuel, hg, hp, hr, hf => by
    cases fuel with
    | zero => exact absurd hf (by omega)
    | succ f =>
      rw [show renderValue gap (.obj []) d = ['{', '}'] from rfl,
        show (['{', '}'] : List Char) ++ rest = '{' :: '}' :: rest from rfl,
        parseValue_step, skipJsonWs_pre_cons pre _ hp (by decide)]
      rfl
  | .arr (e :: es), gap, d, pre, rest, fuel, hg, hp, hr, hf => by
    cases fuel with
    | zero => exact absurd hf (by omega)
    | succ f =>
      have harg : renderValue gap (.arr (e :: es)) d ++ rest =
          '[' :: (nlIndent gap (d + 1) ++ (renderItems gap (e :: es) (d + 1) ++
            (nlIndent gap d ++ ']' :: rest))) := by
        rw [renderValue_arr_cons]
        simp [List.append_assoc]
      obtain ⟨c0, t0, hre, hws0, hne0⟩ := renderItems_head_ws gap e es (d + 1)
      have hskip : skipJsonWs (nlIndent gap (d + 1) ++ (renderItems gap (e :: es) (d + 1) ++
          (nlIndent gap d ++ ']' :: rest))) =
          c0 :: (t0 ++ (nlIndent gap d ++ ']' :: rest)) := by
        rw [skipJsonWs_append_ws _ _ (nlIndent_wsOnly hg (d + 1)), hre, List.cons_append,
          skipJsonWs_cons_of_not _ hws0]
      rw [harg, parseValue_arr_branch f pre _ _ hp hskip hne0]
      have hfi : (renderItems gap (e :: es) (d + 1)).length + 1 < f := by
        rw [renderValue_arr_cons] at hf
        simp only [List.length_cons, List.length_append] at hf
        omega
      have key := rt_items e es gap (d + 1) (nlIndent gap d) rest f hg
        (nlIndent_wsOnly hg d) hfi
      rw [show c0 :: (t0 ++ (nlIndent gap d ++ ']' :: rest))
          = renderItems gap (e :: es) (d + 1) ++ (nlIndent gap d ++ ']' :: rest) by
        rw [hre, List.cons_append]]
      rw [key]
      rfl
  | .obj ((k, v) :: ms), gap, d, pre, rest, fuel, hg, hp, hr, hf => by
    cases fuel with
    | zero => exact absurd hf (by omega)
    | succ f =>
      have harg : renderValue gap (.obj ((k, v) :: ms)) d ++ rest =
          '{' :: (nlIndent gap (d + 1) ++ (renderMembers gap ((k, v) :: ms) (d + 1) ++
            (nlIndent gap d ++ '}' :: rest))) := by
        rw [renderValue_obj_cons]
        simp [List.append_assoc]
      obtain ⟨t0, hre⟩ := renderMembers_head gap k v ms (d + 1)
      have hskip : skipJsonWs (nlIndent gap (d + 1) ++
          (renderMembers gap ((k, v) :: ms) (d + 1) ++
            (nlIndent gap d ++ '}' :: rest))) =
          '"' :: (t0 ++ (nlIndent gap d ++ '}' :: rest)) := by
        rw [skipJsonWs_append_ws _ _ (nlIndent_wsOnly hg (d + 1)), hre, List.cons_append,
          skipJsonWs_cons_of_not _ (by decide)]
      rw [harg, parseValue_obj_branch f pre _ _ hp hskip (by decide)]
      have hfm : (renderMembers gap ((k, v) :: ms) (d + 1)).length + 1 < f := by
        rw [renderValue_obj_cons] at hf
        simp only [List.length_cons, List.length_append] at hf
        omega
      have key := rt_members k v ms gap (d + 1) [] (nlIndent gap d) rest f hg rfl
        (nlIndent_wsOnly hg d) hfm
      rw [List.nil_append] at key
      rw [show ('"' :: (t0 ++ (nlIndent gap d ++ '}' :: rest)) : List Char)
          = renderMembers gap ((k, v) :: ms) (d + 1) ++ (nlIndent gap d ++ '}' :: rest) by
        rw [hre, List.cons_append]]
      rw [key]
      rfl
termination_by v _ _ _ _ _ _ _ _ _ => sizeOf v

theorem rt_items : ∀ (e : JsonValue) (es : List JsonValue) (gap : List Char) (d : Nat)
    (wsTail rest : List Char) (fuel : Nat),
    wsOnly gap = true → wsOnly wsTail = true →
    (renderItems gap (e :: es) d).length + 1 < fuel →
    parseItemsFrom fuel (renderItems gap (e :: es) d ++ (wsTail ++ ']' :: rest)) =
      .ok (e :: es, rest)
  | e, [], gap, d, wsTail, rest, fuel, hg, hw, hf => by
    cases fuel with
    | zero => exact absurd hf (by omega)
    | succ f =>
      rw [renderItems_single] at hf ⊢
      have hv := rt_val e gap d [] (wsTail ++ ']' :: rest) f hg rfl
        (headNotNum_sep hw (by decide) rest) (by omega)
      rw [List.nil_append] at hv
      rw [parseItemsFrom_step, hv]
      show (match skipJsonWs (wsTail ++ ']' :: rest) with
        | ',' :: r2 => (parseItemsFrom f r2).map
            (fun (p : List JsonValue × List Char) => (e :: p.1, p.2))
        | ']' :: r2 => Except.ok ([e], r2)
        | [] => Except.error (ParseErrKind.endOfInput, 0)
        | c :: t2 => Except.error (ParseErrKind.unexpectedChar c, t2.length + 1)) = _
      rw [skipJsonWs_append_ws _ _ hw, skipJsonWs_cons_of_not _ (by decide)]
      rfl
  | e, e2 :: es2, gap, d, wsTail, rest, fuel, hg, hw, hf => by
    cases fuel with
    | zero => exact absurd hf (by omega)
    | succ f =>
      have harg : renderItems gap (e :: e2 :: es2) d ++ (wsTail ++ ']' :: rest) =
          renderValue gap e d ++ (',' :: (nlIndent gap d ++
            (renderItems gap (e2 :: es2) d ++ (wsTail ++ ']' :: rest)))) := by
        rw [renderItems_cons2]
        simp [List.append_assoc]
      rw [renderItems_cons2] at hf
      simp only [List.length_append, List.length_cons] at hf
      have he1 := renderValue_length_pos gap e d
      have hv := rt_val e gap d []
        (',' :: (nlIndent gap d ++ (renderItems gap (e2 :: es2) d ++
          (wsTail ++ ']' :: rest)))) f hg rfl rfl (by omega)
      rw [List.nil_append] at hv
      rw [harg, parseItemsFrom_step, hv]
      show (match skipJsonWs (',' :: (nlIndent gap d ++ (renderItems gap (e2 :: es2) d ++
          (wsTail ++ ']' :: rest)))) with
        | ',' :: r2 => (parseItemsFrom f r2).map
            (fun (p : List JsonValue × List Char) => (e :: p.1, p.2))
        | ']' :: r2 => Except.ok ([e], r2)
        | [] => Except.error (ParseErrKind.endOfInput, 0)
        | c :: t2 => Except.error (ParseErrKind.unexpectedChar c, t2.length + 1)) = _
      rw [skipJsonWs_cons_of_not _ (by decide)]
      have hfi : (renderItems gap (e2 :: es2) d).length + 1 < f := by omega
      have key := rt_items e2 es2 gap d wsTail rest f hg hw hfi
      show (parseItemsFrom f (nlIndent gap d ++ (renderItems gap (e2 :: es2) d ++
          (wsTail ++ ']' :: rest)))).map
        (fun (p : List JsonValue × List Char) => (e :: p.1, p.2)) = _
      cases f with
      | zero => omega
      | succ f2 =>
        have habsorb : parseItemsFrom (f2 + 1) (nlIndent gap d ++
            (renderItems gap (e2 :: es2) d ++ (wsTail ++ ']' :: rest))) =
            parseItemsFrom (f2 + 1) (renderItems gap (e2 :: es2) d ++
              (wsTail ++ ']' :: rest)) := by
          obtain ⟨c0, t0, hre, hws0, -⟩ := renderItems_head_ws gap e2 es2 d
          rw [parseItemsFrom_step, parseItemsFrom_step]
          have : skipJsonWs (nlIndent gap d ++ (renderItems gap (e2 :: es2) d ++
              (wsTail ++ ']' :: rest))) = skipJsonWs (renderItems gap (e2 :: es2) d ++
              (wsTail ++ ']' :: rest)) :=
            skipJsonWs_append_ws _ _ (nlIndent_wsOnly hg d)
          cases f2 with
          | zero =>
            rw [show ∀ cs : List Char, parseValue 0 cs
                = Except.error (ParseErrKind.outOfFuel, cs.length) from fun _ => rfl,
              show ∀ cs : List Char, parseValue 0 cs
                = Except.error (ParseErrKind.outOfFuel, cs.length) from fun _ => rfl]
            omega
          | succ f3 =>
            rw [parseValue_step, parseValue_step, this]
        rw [habsorb, key]
        rfl
termination_by e es _ _ _ _ _ _ _ _ => sizeOf e + sizeOf es

theorem rt_members : ∀ (k : List Char) (v : JsonValue)
    (ms : List (List Char × JsonValue)) (gap : List Char) (d : Nat)
    (pre wsTail rest : List Char) (fuel : Nat),
    wsOnly gap = true → wsOnly pre = true → wsOnly wsTail = true →
    (renderMembers gap ((k, v) :: ms) d).length + 1 < fuel →
    parseMembersFrom fuel (pre ++ (renderMembers gap ((k, v) :: ms) d ++
      (wsTail ++ '}' :: rest))) = .ok ((k, v) :: ms, rest)
  | k, v, [], gap, d, pre, wsTail, rest, fuel, hg, hp, hw, hf => by
    cases fuel with
    | zero => exact absurd hf (by omega)
    | succ f =>
      have harg : renderMembers gap [(k, v)] d ++ (wsTail ++ '}' :: rest) =
          '"' :: (escBody k ++ '"' :: (colonSep gap ++ (renderValue gap v d ++
            (wsTail ++ '}' :: rest)))) := by
        rw [renderMembers_single]
        simp only [List.append_assoc]
        rw [quoteStr_append]
      rw [renderMembers_single] at hf
      simp only [List.length_append] at hf
      rw [harg, parseMembersFrom_step, skipJsonWs_pre_cons pre _ hp (by decide)]
      show (match parseStringBody (escBody k ++ '"' :: (colonSep gap ++
          (renderValue gap v d ++ (wsTail ++ '}' :: rest)))) with
        | Except.error e2 => Except.error e2
        | Except.ok (k2, r1) =>
          match skipJsonWs r1 with
          | ':' :: r2 =>
            match parseValue f r2 with
            | Except.error e2 => Except.error e2
            | Except.ok (v2, r3) =>
              match skipJsonWs r3 with
              | ',' :: r4 => (parseMembersFrom f r4).map
                  (fun (p : List (List Char × JsonValue) × List Char) =>
                    ((k2, v2) :: p.1, p.2))
              | '}' :: r4 => Except.ok ([(k2, v2)], r4)
              | [] => Except.error (ParseErrKind.endOfInput, 0)
              | c :: t2 => Except.error (ParseErrKind.unexpectedChar c, t2.length + 1)
          | [] => Except.error (ParseErrKind.endOfInput, 0)
          | c :: t2 => Except.error (ParseErrKind.unexpectedChar c, t2.length + 1)) = _
      rw [parseStringBody_render]
      show (match skipJsonWs (colonSep gap ++ (renderValue gap v d ++
          (wsTail ++ '}' :: rest))) with
        | ':' :: r2 =>
          match parseValue f r2 with
          | .error e2 => Except.error e2
          | .ok (v2, r3) =>
            match skipJsonWs r3 with
            | ',' :: r4 => (parseMembersFrom f r4).map
                (fun (p : List (List Char × JsonValue) × List Char) =>
                  ((k, v2) :: p.1, p.2))
            | '}' :: r4 => Except.ok ([(k, v2)], r4)
            | [] => Except.error (ParseErrKind.endOfInput, 0)
            | c :: t2 => Except.error (ParseErrKind.unexpectedChar c, t2.length + 1)
        | [] => Except.error (ParseErrKind.endOfInput, 0)
        | c :: t2 => Except.error (ParseErrKind.unexpectedChar c, t2.length + 1)) = _
      rw [colonSep_eq, List.cons_append, skipJsonWs_cons_of_not _ (by decide)]
      have hv := rt_val v gap d (if gap.isEmpty then [] else [' '])
        (wsTail ++ '}' :: rest) f hg (colonTail_wsOnly gap)
        (headNotNum_sep hw (by decide) rest) (by omega)
      show (match parseValue f ((if gap.isEmpty then ([] : List Char) else [' ']) ++
          (renderValue gap v d ++ (wsTail ++ '}' :: rest))) with
        | Except.error e2 => Except.error e2
        | Except.ok (v2, r3) =>
          match skipJsonWs r3 with
          | ',' :: r4 => (parseMembersFrom f r4).map
              (fun (p : List (List Char × JsonValue) × List Char) =>
                ((k, v2) :: p.1, p.2))
          | '}' :: r4 => Except.ok ([(k, v2)], r4)
          | [] => Except.error (ParseErrKind.endOfInput, 0)
          | c :: t2 => Except.error (ParseErrKind.unexpectedChar c, t2.length + 1)) = _
      rw [hv]
      show (match skipJsonWs (wsTail ++ '}' :: rest) with
        | ',' :: r4 => (parseMembersFrom f r4).map
            (fun (p : List (List Char × JsonValue) × List Char) => ((k, v) :: p.1, p.2))
        | '}' :: r4 => Except.ok ([(k, v)], r4)
        | [] => Except.error (ParseErrKind.endOfInput, 0)
        | c :: t2 => Except.error (ParseErrKind.unexpectedChar c, t2.length + 1)) = _
      rw [skipJsonWs_append_ws _ _ hw, skipJsonWs_cons_of_not _ (by decide)]
      rfl
  | k, v, (k2, v2) :: ms2, gap, d, pre, wsTail, rest, fuel, hg, hp, hw, hf => by
    cases fuel with
    | zero => exact absurd hf (by omega)
    | succ f =>
      have harg : renderMembers gap ((k, v) :: (k2, v2) :: ms2) d ++
          (wsTail ++ '}' :: rest) =
          '"' :: (escBody k ++ '"' :: (colonSep gap ++ (renderValue gap v d ++
            (',' :: (nlIndent gap d ++ (renderMembers gap ((k2, v2) :: ms2) d ++
              (wsTail ++ '}' :: rest))))))) := by
        rw [renderMembers_cons2]
        simp only [List.append_assoc, List.cons_append]
        rw [quoteStr_append]
      rw [renderMembers_cons2] at hf
      simp only [List.length_append, List.length_cons] at hf
      have he1 := renderValue_length_pos gap v d
      rw [harg, parseMembersFrom_step, skipJsonWs_pre_cons pre _ hp (by decide)]
      show (match parseStringBody (escBody k ++ '"' :: (colonSep gap ++
          (renderValue gap v d ++ (',' :: (nlIndent gap d ++
            (renderMembers gap ((k2, v2) :: ms2) d ++ (wsTail ++ '}' :: rest))))))) with
        | Except.error e2 => Except.error e2
        | Except.ok (k3, r1) =>
          match skipJsonWs r1 with
          | ':' :: r2 =>
            match parseValue f r2 with
            | Except.error e2 => Except.error e2
            | Except.ok (v3, r3) =>
              match skipJsonWs r3 with
              | ',' :: r4 => (parseMembersFrom f r4).map
                  (fun (p : List (List Char × JsonValue) × List Char) =>
                    ((k3, v3) :: p.1, p.2))
              | '}' :: r4 => Except.ok ([(k3, v3)], r4)
              | [] => Except.error (ParseErrKind.endOfInput, 0)
              | c :: t2 => Except.error (ParseErrKind.unexpectedChar c, t2.length + 1)
          | [] => Except.error (ParseErrKind.endOfInput, 0)
          | c :: t2 => Except.error (ParseErrKind.unexpectedChar c, t2.length + 1)) = _
      rw [parseStringBody_render]
      show (match skipJsonWs (colonSep gap ++ (renderValue gap v d ++
          (',' :: (nlIndent gap d ++ (renderMembers gap ((k2, v2) :: ms2) d ++
            (wsTail ++ '}' :: rest)))))) with
        | ':' :: r2 =>
          match parseValue f r2 with
          | .error e2 => Except.error e2
          | .ok (v3, r3) =>
            match skipJsonWs r3 with
            | ',' :: r4 => (parseMembersFrom f r4).map
                (fun (p : List (List Char × JsonValue) × List Char) =>
                  ((k, v3) :: p.1, p.2))
            | '}' :: r4 => Except.ok ([(k, v3)], r4)
            | [] => Except.error (ParseErrKind.endOfInput, 0)
            | c :: t2 => Except.error (ParseErrKind.unexpectedChar c, t2.length + 1)
        | [] => Except.error (ParseErrKind.endOfInput, 0)
        | c :: t2 => Except.error (ParseErrKind.unexpectedChar c, t2.length + 1)) = _
      rw [colonSep_eq, List.cons_append, skipJsonWs_cons_of_not _ (by decide)]
      have hv := rt_val v gap d (if gap.isEmpty then [] else [' '])
        (',' :: (nlIndent gap d ++ (renderMembers gap ((k2, v2) :: ms2) d ++
          (wsTail ++ '}' :: rest)))) f hg (colonTail_wsOnly gap) rfl (by omega)
      show (match parseValue f ((if gap.isEmpty then ([] : List Char) else [' ']) ++
          (renderValue gap v d ++ (',' :: (nlIndent gap d ++
            (renderMembers gap ((k2, v2) :: ms2) d ++ (wsTail ++ '}' :: rest)))))) with
        | Except.error e2 => Except.error e2
        | Except.ok (v3, r3) =>
          match skipJsonWs r3 with
          | ',' :: r4 => (parseMembersFrom f r4).map
              (fun (p : List (List Char × JsonValue) × List Char) =>
                ((k, v3) :: p.1, p.2))
          | '}' :: r4 => Except.ok ([(k, v3)], r4)
          | [] => Except.error (ParseErrKind.endOfInput, 0)
          | c :: t2 => Except.error (ParseErrKind.unexpectedChar c, t2.length + 1)) = _
      rw [hv]
      show (match skipJsonWs (',' :: (nlIndent gap d ++
          (renderMembers gap ((k2, v2) :: ms2) d ++ (wsTail ++ '}' :: rest)))) with
        | ',' :: r4 => (parseMembersFrom f r4).map
            (fun (p : List (List Char × JsonValue) × List Char) => ((k, v) :: p.1, p.2))
        | '}' :: r4 => Except.ok ([(k, v)], r4)
        | [] => Except.error (ParseErrKind.endOfInput, 0)
        | c :: t2 => Except.error (ParseErrKind.unexpectedChar c, t2.length + 1)) = _
      rw [skipJsonWs_cons_of_not _ (by decide)]
      have hfm : (renderMembers gap ((k2, v2) :: ms2) d).length + 1 < f := by omega
      have key := rt_members k2 v2 ms2 gap d (nlIndent gap d) wsTail rest f hg
        (nlIndent_wsOnly hg d) hw hfm
      show (parseMembersFrom f (nlIndent gap d ++
          (renderMembers gap ((k2, v2) :: ms2) d ++ (wsTail ++ '}' :: rest)))).map
        (fun (p : List (List Char × JsonValue) × List Char) => ((k, v) :: p.1, p.2)) = _
      rw [key]
      rfl
termination_by k v ms _ _ _ _ _ _ _ _ _ _ => sizeOf v + sizeOf ms
end

/-- Every indent unit the options can produce is strict-JSON whitespace. -/
theorem wsOnly_indentStrOf (opts : Indentation) : wsOnly (indentStrOf opts) = true := by
  cases opts with
  | unset => decide
  | tab => decide
  | spaces n =>
    simp only [indentStrOf, wsOnly, List.all_eq_true]
    intro x hx
    rw [List.eq_of_mem_replicate hx]
    decide

/-- Parsing back any pretty-printed value recovers it (top level). -/
theorem jsonParse_render (v : JsonValue) (gap : List Char) (hg : wsOnly gap = true) :
    jsonParse (renderValue gap v 0) = .ok v := by
  have h := rt_val v gap 0 [] [] ((renderValue gap v 0).length + 1) hg rfl rfl (by omega)
  rw [List.nil_append, List.append_nil] at h
  unfold jsonParse
  rw [h]
  rfl

/-- C8: on every valid input, `formatUntilError` returns `isValid:true` with
the pretty-printed text, and re-parsing that text yields a value equal to the
one parsed from the original input. -/
theorem formattedFull_roundtrip (src : List Char) (opts : Indentation) (v : JsonValue)
    (h : jsonParse src = .ok v) :
    formatUntilError src opts = .valid (renderValue (indentStrOf opts) v 0) ∧
    jsonParse (renderValue (indentStrOf opts) v 0) = .ok v := by
  constructor
  · unfold formatUntilError
    rw [h]
  · exact jsonParse_render v (indentStrOf opts) (wsOnly_indentStrOf opts)

/-- Witness for C8 on `{"a":[1,true]}`. -/
theorem formattedFull_roundtrip_witness :
    jsonParse "\x7b\"a\":[1,true]\x7d".data =
      .ok (.obj [(['a'], .arr [.num ⟨['1'], rfl⟩, .bool true])]) ∧
    formatUntilError "\x7b\"a\":[1,true]\x7d".data Indentation.unset =
      .valid (renderValue (indentStrOf Indentation.unset)
        (.obj [(['a'], .arr [.num ⟨['1'], rfl⟩, .bool true])]) 0) ∧
    jsonParse (renderValue (indentStrOf Indentation.unset)
        (.obj [(['a'], .arr [.num ⟨['1'], rfl⟩, .bool true])]) 0) =
      .ok (.obj [(['a'], .arr [.num ⟨['1'], rfl⟩, .bool true])]) := by
  have h := formattedFull_roundtrip "\x7b\"a\":[1,true]\x7d".data Indentation.unset
    (.obj [(['a'], .arr [.num ⟨['1'], rfl⟩, .bool true])]) rfl
  exact ⟨rfl, h.1, h.2⟩

/-! ### C7: the formatting automaton versus the reference pretty-printer -/

theorem jsWs_toNat {c : Char} (h : jsWs c = true) :
    c.toNat = 32 ∨ c.toNat = 9 ∨ c.toNat = 10 ∨ c.toNat = 13 ∨ c.toNat = 11 ∨
    c.toNat = 12 ∨ c.toNat = 160 ∨ c.toNat = 5760 ∨
    (8192 ≤ c.toNat ∧ c.toNat ≤ 8202) ∨ c.toNat = 8232 ∨ c.toNat = 8233 ∨
    c.toNat = 8239 ∨ c.toNat = 8287 ∨ c.toNat = 12288 ∨ c.toNat = 65279 := by
  simp only [jsWs, Bool.or_eq_true, beq_iff_eq, Bool.and_eq_true,
    decide_eq_true_eq] at h
  rcases h with (((((((((((((h | h) | h) | h) | h) | h) | h) | h) |
    ⟨h1, h2⟩) | h) | h) | h) | h) | h) | h
  · exact Or.inl (by subst h; decide)
  · exact Or.inr (Or.inl (by subst h; decide))
  · exact Or.inr (Or.inr (Or.inl (by subst h; decide)))
  · exact Or.inr (Or.inr (Or.inr (Or.inl (by subst h; decide))))
  · exact Or.inr (Or.inr (Or.inr (Or.inr (Or.inl (by subst h; decide)))))
  · exact Or.inr (Or.inr (Or.inr (Or.inr (Or.inr (Or.inl (by subst h; decide))))))
  · exact Or.inr (Or.inr (Or.inr (Or.inr (Or.inr (Or.inr (Or.inl
      (by subst h; decide)))))))
  · exact Or.inr (Or.inr (Or.inr (Or.inr (Or.inr (Or.inr (Or.inr (Or.inl
      (by subst h; decide))))))))
  · exact Or.inr (Or.inr (Or.inr (Or.inr (Or.inr (Or.inr (Or.inr (Or.inr
      (Or.inl ⟨h1, h2⟩))))))))
  all_goals subst h
  · exact Or.inr (Or.inr (Or.inr (Or.inr (Or.inr (Or.inr (Or.inr (Or.inr
      (Or.inr (Or.inl (by decide))))))))))
  · exact Or.inr (Or.inr (Or.inr (Or.inr (Or.inr (Or.inr (Or.inr (Or.inr
      (Or.inr (Or.inr (Or.inl (by decide)))))))))))
  · exact Or.inr (Or.inr (Or.inr (Or.inr (Or.inr (Or.inr (Or.inr (Or.inr
      (Or.inr (Or.inr (Or.inr (Or.inl (by decide))))))))))))
  · exact Or.inr (Or.inr (Or.inr (Or.inr (Or.inr (Or.inr (Or.inr (Or.inr
      (Or.inr (Or.inr (Or.inr (Or.inr (Or.inl (by decide)))))))))))))
  · exact Or.inr (Or.inr (Or.inr (Or.inr (Or.inr (Or.inr (Or.inr (Or.inr
      (Or.inr (Or.inr (Or.inr (Or.inr (Or.inr (Or.inl (by decide))))))))))))))
  · exact Or.inr (Or.inr (Or.inr (Or.inr (Or.inr (Or.inr (Or.inr (Or.inr
      (Or.inr (Or.inr (Or.inr (Or.inr (Or.inr (Or.inr (by decide))))))))))))))

theorem jsWs_ascii_false {c : Char} (hle : c.toNat ≤ 125) (h1 : c.toNat ≠ 32)
    (h2 : c.toNat ≠ 9) (h3 : c.toNat ≠ 10) (h4 : c.toNat ≠ 13)
    (h5 : c.toNat ≠ 11) (h6 : c.toNat ≠ 12) : jsWs c = false := by
  cases hw : jsWs c with
  | false => rfl
  | true =>
    exfalso
    rcases jsWs_toNat hw with h | h | h | h | h | h | h | h | ⟨ha, hb⟩ |
      h | h | h | h | h | h <;> omega

theorem plainChar_of_toNat {c : Char} (hle : c.toNat ≤ 125)
    (h34 : c.toNat ≠ 34) (h123 : c.toNat ≠ 123) (h91 : c.toNat ≠ 91)
    (h125 : c.toNat ≠ 125) (h93 : c.toNat ≠ 93) (h44 : c.toNat ≠ 44)
    (h58 : c.toNat ≠ 58) (h32 : c.toNat ≠ 32) (h9 : c.toNat ≠ 9)
    (h10 : c.toNat ≠ 10) (h13 : c.toNat ≠ 13) (h11 : c.toNat ≠ 11)
    (h12 : c.toNat ≠ 12) : plainChar c = true := by
  simp only [plainChar, Bool.and_eq_true, Bool.not_eq_true', beq_eq_false_iff_ne]
  refine ⟨⟨⟨⟨⟨⟨⟨char_ne_of_toNat ?_, char_ne_of_toNat ?_⟩, char_ne_of_toNat ?_⟩,
    char_ne_of_toNat ?_⟩, char_ne_of_toNat ?_⟩, char_ne_of_toNat ?_⟩,
    char_ne_of_toNat ?_⟩, jsWs_ascii_false hle h32 h9 h10 h13 h11 h12⟩
  · exact fun hc => h34 (by rw [hc]; rfl)
  · exact fun hc => h123 (by rw [hc]; rfl)
  · exact fun hc => h91 (by rw [hc]; rfl)
  · exact fun hc => h125 (by rw [hc]; rfl)
  · exact fun hc => h93 (by rw [hc]; rfl)
  · exact fun hc => h44 (by rw [hc]; rfl)
  · exact fun hc => h58 (by rw [hc]; rfl)

theorem plainChar_of_numChar {c : Char} (h : numChar c = true) :
    plainChar c = true := by
  rcases numChar_toNat h with ⟨ha, hb⟩ | h1 | h1 | h1 | h1 | h1 <;>
    exact plainChar_of_toNat (by omega) (by omega) (by omega) (by omega)
      (by omega) (by omega) (by omega) (by omega) (by omega) (by omega)
      (by omega) (by omega) (by omega) (by omega)

theorem foldl_one (ind : List Char) (st : FmtState) (c : Char) :
    [c].foldl (fmtStep ind) st = fmtStep ind st c := rfl

theorem foldl_piece {A B : List Char} {st st1 st2 : FmtState} (ind : List Char)
    (h1 : A.foldl (fmtStep ind) st = st1)
    (h2 : B.foldl (fmtStep ind) st1 = st2) :
    (A ++ B).foldl (fmtStep ind) st = st2 := by
  rw [List.foldl_append, h1, h2]

theorem foldl_cons_piece {B : List Char} {st st1 st2 : FmtState}
    (ind : List Char) (c : Char)
    (h1 : fmtStep ind st c = st1) (h2 : B.foldl (fmtStep ind) st1 = st2) :
    (c :: B).foldl (fmtStep ind) st = st2 := by
  rw [List.foldl_cons, h1, h2]

theorem fmtStep_notString_quote (ind out : List Char) (level : Nat) :
    fmtStep ind ⟨out, level, false, false⟩ '"' =
      ⟨out ++ ['"'], level, true, false⟩ := by
  simp [fmtStep]

theorem fmtStep_openBrace (ind out : List Char) (level : Nat) :
    fmtStep ind ⟨out, level, false, false⟩ '{' =
      ⟨out ++ '{' :: '\n' :: indentRep ind (level + 1), level + 1,
        false, false⟩ := by
  simp [fmtStep]

theorem fmtStep_openBracket (ind out : List Char) (level : Nat) :
    fmtStep ind ⟨out, level, false, false⟩ '[' =
      ⟨out ++ '[' :: '\n' :: indentRep ind (level + 1), level + 1,
        false, false⟩ := by
  simp [fmtStep]

theorem fmtStep_closeBrace (ind out : List Char) (level : Nat) :
    fmtStep ind ⟨out, level, false, false⟩ '}' =
      ⟨trimLineEnd out ++ '\n' :: indentRep ind (level - 1) ++ ['}'], level - 1,
        false, false⟩ := by
  simp [fmtStep]

theorem fmtStep_closeBracket (ind out : List Char) (level : Nat) :
    fmtStep ind ⟨out, level, false, false⟩ ']' =
      ⟨trimLineEnd out ++ '\n' :: indentRep ind (level - 1) ++ [']'], level - 1,
        false, false⟩ := by
  simp [fmtStep]

theorem fmtStep_comma (ind out : List Char) (level : Nat) :
    fmtStep ind ⟨out, level, false, false⟩ ',' =
      ⟨out ++ ',' :: '\n' :: indentRep ind level, level, false, false⟩ := by
  simp [fmtStep]

theorem fmtStep_colon (ind out : List Char) (level : Nat) :
    fmtStep ind ⟨out, level, false, false⟩ ':' =
      ⟨out ++ [':', ' '], level, false, false⟩ := by
  simp [fmtStep]

theorem fmtStep_plain (ind : List Char) {c : Char} (out : List Char)
    (level : Nat) (hc : plainChar c = true) :
    fmtStep ind ⟨out, level, false, false⟩ c =
      ⟨out ++ [c], level, false, false⟩ := by
  simp only [plainChar, Bool.and_eq_true, Bool.not_eq_true',
    beq_eq_false_iff_ne] at hc
  obtain ⟨⟨⟨⟨⟨⟨⟨h1, h2⟩, h3⟩, h4⟩, h5⟩, h6⟩, h7⟩, h8⟩ := hc
  simp [fmtStep, h1, h2, h3, h4, h5, h6, h7, h8]

theorem fmtStep_inString_escaped (ind : List Char) (ch : Char)
    (out : List Char) (level : Nat) :
    fmtStep ind ⟨out, level, true, true⟩ ch =
      ⟨out ++ [ch], level, true, false⟩ := by
  simp [fmtStep]

theorem fmtStep_inString_backslash (ind out : List Char) (level : Nat) :
    fmtStep ind ⟨out, level, true, false⟩ '\\' =
      ⟨out ++ ['\\'], level, true, true⟩ := by
  simp [fmtStep]

theorem fmtStep_inString_closeQuote (ind out : List Char) (level : Nat) :
    fmtStep ind ⟨out, level, true, false⟩ '"' =
      ⟨out ++ ['"'], level, false, false⟩ := by
  simp [fmtStep]

theorem fmtStep_inString_plain (ind : List Char) {ch : Char} (out : List Char)
    (level : Nat) (h1 : ch ≠ '\\') (h2 : ch ≠ '"') :
    fmtStep ind ⟨out, level, true, false⟩ ch =
      ⟨out ++ [ch], level, true, false⟩ := by
  simp [fmtStep, h1, h2]

theorem getLast?_append_right {l1 l2 : List Char} (h : l2 ≠ []) :
    (l1 ++ l2).getLast? = l2.getLast? := by
  induction l1 with
  | nil => rfl
  | cons a t ih =>
    have hne : t ++ l2 ≠ [] := fun hnil => h (List.append_eq_nil.mp hnil).2
    rw [List.cons_append, getLast?_cons_of_ne_nil hne, ih]

theorem trimLineEnd_noop {l : List Char} {c : Char} (hl : l.getLast? = some c)
    (hc : (c == ' ' || c == '\t') = false) : trimLineEnd l = l := by
  cases hrev : l.reverse with
  | nil =>
    rw [List.reverse_eq_nil_iff] at hrev
    subst hrev
    simp at hl
  | cons a t =>
    have hla : l = (a :: t).reverse := by rw [← hrev, List.reverse_reverse]
    have hac : a = c := by
      rw [hla, List.reverse_cons, List.getLast?_concat] at hl
      exact Option.some_inj.mp hl
    subst hac
    rw [trimLineEnd, hrev]
    simp only [List.dropWhile_cons, hc, Bool.false_eq_true, if_false]
    rw [← hrev, List.reverse_reverse]

theorem toHexDigit_ne (n : Nat) (h : n < 16) :
    toHexDigit n ≠ '\\' ∧ toHexDigit n ≠ '"' := by
  interval_cases n <;> exact ⟨by decide, by decide⟩

theorem foldFmt_plain (ind : List Char) : ∀ (cs out : List Char) (level : Nat),
    cs.all plainChar = true →
    cs.foldl (fmtStep ind) ⟨out, level, false, false⟩ =
      ⟨out ++ cs, level, false, false⟩
  | [], out, level, _ => by simp
  | c :: t, out, level, hall => by
    simp only [List.all_cons, Bool.and_eq_true] at hall
    refine foldl_cons_piece ind c (fmtStep_plain ind out level hall.1) ?_
    rw [foldFmt_plain ind t (out ++ [c]) level hall.2]
    simp

theorem foldFmt_escapeChar (ind : List Char) (c : Char) (out : List Char)
    (level : Nat) :
    (escapeChar c).foldl (fmtStep ind) ⟨out, level, true, false⟩ =
      ⟨out ++ escapeChar c, level, true, false⟩ := by
  by_cases h1 : c = '"'
  · subst h1; simp [escapeChar, fmtStep]
  by_cases h2 : c = '\\'
  · subst h2; simp [escapeChar, fmtStep]
  by_cases h3 : c = '\x08'
  · subst h3; simp [escapeChar, fmtStep]
  by_cases h4 : c = '\x0c'
  · subst h4; simp [escapeChar, fmtStep]
  by_cases h5 : c = '\n'
  · subst h5; simp [escapeChar, fmtStep]
  by_cases h6 : c = '\r'
  · subst h6; simp [escapeChar, fmtStep]
  by_cases h7 : c = '\t'
  · subst h7; simp [escapeChar, fmtStep]
  by_cases h8 : c.toNat < 0x20
  · have hq := toHexDigit_ne (c.toNat / 16) (by omega)
    have hr := toHexDigit_ne (c.toNat % 16) (Nat.mod_lt _ (by omega))
    have he : escapeChar c = ['\\', 'u', '0', '0', toHexDigit (c.toNat / 16),
        toHexDigit (c.toNat % 16)] := by
      simp [escapeChar, h1, h2, h3, h4, h5, h6, h7, h8]
    rw [he]
    refine foldl_cons_piece ind '\\' (fmtStep_inString_backslash ind out level) ?_
    refine foldl_cons_piece ind 'u'
      (fmtStep_inString_escaped ind 'u' (out ++ ['\\']) level) ?_
    refine foldl_cons_piece ind '0'
      (fmtStep_inString_plain ind _ _ (by decide) (by decide)) ?_
    refine foldl_cons_piece ind '0'
      (fmtStep_inString_plain ind _ _ (by decide) (by decide)) ?_
    refine foldl_cons_piece ind (toHexDigit (c.toNat / 16))
      (fmtStep_inString_plain ind _ _ hq.1 hq.2) ?_
    refine foldl_cons_piece ind (toHexDigit (c.toNat % 16))
      (fmtStep_inString_plain ind _ _ hr.1 hr.2) ?_
    simp [List.append_assoc]
  · have he : escapeChar c = [c] := by
      simp [escapeChar, h1, h2, h3, h4, h5, h6, h7, h8]
    rw [he, foldl_one, fmtStep_inString_plain ind out level h2 h1]

theorem foldFmt_escBody (ind : List Char) : ∀ (s out : List Char) (level : Nat),
    (escBody s ++ ['"']).foldl (fmtStep ind) ⟨out, level, true, false⟩ =
      ⟨(out ++ escBody s) ++ ['"'], level, false, false⟩
  | [], out, level => by
    show List.foldl (fmtStep ind) _ ['"'] = _
    rw [foldl_one, fmtStep_inString_closeQuote ind out level]
    simp [escBody]
  | c :: t, out, level => by
    rw [escBody_cons, List.append_assoc]
    refine foldl_piece ind (foldFmt_escapeChar ind c out level) ?_
    rw [foldFmt_escBody ind t (out ++ escapeChar c) level]
    simp [escBody_cons, List.append_assoc]

theorem foldFmt_quoteStr (ind s out : List Char) (level : Nat) :
    (quoteStr s).foldl (fmtStep ind) ⟨out, level, false, false⟩ =
      ⟨out ++ quoteStr s, level, false, false⟩ := by
  show List.foldl (fmtStep ind) _ ('"' :: (escBody s ++ ['"'])) = _
  refine foldl_cons_piece ind '"' (fmtStep_notString_quote ind out level) ?_
  rw [foldFmt_escBody ind s (out ++ ['"']) level]
  simp [quoteStr, List.append_assoc]

theorem notHT_of_isDigit {c : Char} (h : isDigit c = true) :
    (c == ' ' || c == '\t') = false := by
  have hb : 48 ≤ c.toNat ∧ c.toNat ≤ 57 := by
    simpa [isDigit, Bool.and_eq_true, decide_eq_true_eq] using h
  simp only [Bool.or_eq_false_iff, beq_eq_false_iff_ne]
  constructor <;> exact char_ne_of_toNat (fun he => absurd (he ▸ hb) (by decide))

theorem renderValue_ne_nil (gap : List Char) (v : JsonValue) (d : Nat) :
    renderValue gap v d ≠ [] := by
  obtain ⟨c, t, hr, -, -, -⟩ := renderValue_head gap v d
  rw [hr]
  simp

theorem renderValue_last (gap : List Char) (v : JsonValue) (d : Nat) :
    ∃ c, (renderValue gap v d).getLast? = some c ∧
      (c == ' ' || c == '\t') = false := by
  cases v with
  | null => exact ⟨'l', rfl, rfl⟩
  | bool b =>
    cases b with
    | false => exact ⟨'e', rfl, rfl⟩
    | true => exact ⟨'e', rfl, rfl⟩
  | num tok =>
    obtain ⟨-, -, dl, hdl, hdig⟩ := numToken_shape tok.property
    exact ⟨dl, hdl, notHT_of_isDigit hdig⟩
  | str s =>
    refine ⟨'"', ?_, rfl⟩
    show (('"' :: escBody s) ++ ['"']).getLast? = some '"'
    rw [List.getLast?_concat]
  | arr es =>
    cases es with
    | nil => exact ⟨']', rfl, rfl⟩
    | cons e es2 =>
      refine ⟨']', ?_, rfl⟩
      rw [renderValue_arr_cons, List.getLast?_concat]
  | obj ms =>
    cases ms with
    | nil => exact ⟨'}', rfl, rfl⟩
    | cons m ms2 =>
      obtain ⟨k, v⟩ := m
      refine ⟨'}', ?_, rfl⟩
      rw [renderValue_obj_cons, List.getLast?_concat]

theorem renderItems_last (gap : List Char) : ∀ (e : JsonValue)
    (es : List JsonValue) (d : Nat),
    ∃ c, (renderItems gap (e :: es) d).getLast? = some c ∧
      (c == ' ' || c == '\t') = false
  | e, [], d => by
    rw [renderItems_single]
    exact renderValue_last gap e d
  | e, e2 :: es2, d => by
    obtain ⟨c, hc, hht⟩ := renderItems_last gap e2 es2 d
    have hne : renderItems gap (e2 :: es2) d ≠ [] := by
      intro hnil
      rw [hnil] at hc
      simp at hc
    refine ⟨c, ?_, hht⟩
    rw [renderItems_cons2, getLast?_append_right hne, hc]

theorem renderMembers_last (gap : List Char) : ∀ (k : List Char) (v : JsonValue)
    (ms : List (List Char × JsonValue)) (d : Nat),
    ∃ c, (renderMembers gap ((k, v) :: ms) d).getLast? = some c ∧
      (c == ' ' || c == '\t') = false
  | k, v, [], d => by
    obtain ⟨c, hc, hht⟩ := renderValue_last gap v d
    refine ⟨c, ?_, hht⟩
    rw [renderMembers_single, getLast?_append_right (renderValue_ne_nil gap v d),
      hc]
  | k, v, (k2, v2) :: ms2, d => by
    obtain ⟨c, hc, hht⟩ := renderMembers_last gap k2 v2 ms2 d
    have hMne : renderMembers gap ((k2, v2) :: ms2) d ≠ [] := by
      intro hnil
      rw [hnil] at hc
      simp at hc
    refine ⟨c, ?_, hht⟩
    rw [renderMembers_cons2, getLast?_append_right hMne, hc]

theorem isEmpty_false_of_ne_nil {l : List Char} (h : l ≠ []) :
    l.isEmpty = false := by
  cases l with
  | nil => exact absurd rfl h
  | cons a t => rfl

mutual
theorem fold_compact_val : ∀ (v : JsonValue) (ind : List Char) (d : Nat)
    (out : List Char) (level : Nat), ind ≠ [] → noEmpty v = true →
    (renderValue [] v d).foldl (fmtStep ind) ⟨out, level, false, false⟩ =
      ⟨out ++ renderValue ind v level, level, false, false⟩
  | .null, ind, d, out, level, hind, hne =>
    foldFmt_plain ind ['n', 'u', 'l', 'l'] out level (by decide)
  | .bool true, ind, d, out, level, hind, hne =>
    foldFmt_plain ind ['t', 'r', 'u', 'e'] out level (by decide)
  | .bool false, ind, d, out, level, hind, hne =>
    foldFmt_plain ind ['f', 'a', 'l', 's', 'e'] out level (by decide)
  | .num tok, ind, d, out, level, hind, hne => by
    obtain ⟨hall, -, -⟩ := numToken_shape tok.property
    exact foldFmt_plain ind tok.val out level
      (all_mono hall fun c hc => plainChar_of_numChar hc)
  | .str s, ind, d, out, level, hind, hne =>
    foldFmt_quoteStr ind s out level
  | .arr [], ind, d, out, level, hind, hne => by simp [noEmpty] at hne
  | .obj [], ind, d, out, level, hind, hne => by simp [noEmpty] at hne
  | .arr (e :: es), ind, d, out, level, hind, hne => by
    simp only [noEmpty, Bool.and_eq_true] at hne
    obtain ⟨hne1, hne2⟩ := hne
    have hind' := isEmpty_false_of_ne_nil hind
    have hcompact : renderValue [] (.arr (e :: es)) d =
        '[' :: (renderItems [] (e :: es) (d + 1) ++ [']']) := by
      simp [renderValue_arr_cons, nlIndent]
    rw [hcompact]
    refine foldl_cons_piece ind '[' (fmtStep_openBracket ind out level) ?_
    refine foldl_piece ind
      (fold_compact_items e es ind (d + 1)
        (out ++ '[' :: '\n' :: indentRep ind (level + 1)) (level + 1)
        hind hne1 hne2) ?_
    rw [foldl_one, fmtStep_closeBracket ind _ (level + 1)]
    obtain ⟨c, hc, hht⟩ := renderItems_last ind e es (level + 1)
    have hine : renderItems ind (e :: es) (level + 1) ≠ [] := by
      intro hnil
      rw [hnil] at hc
      simp at hc
    have hlast : ((out ++ '[' :: '\n' :: indentRep ind (level + 1)) ++
        renderItems ind (e :: es) (level + 1)).getLast? = some c := by
      rw [getLast?_append_right hine, hc]
    rw [trimLineEnd_noop hlast hht]
    simp [renderValue_arr_cons, nlIndent, hind', List.append_assoc]
  | .obj ((k, v) :: ms), ind, d, out, level, hind, hne => by
    simp only [noEmpty, Bool.and_eq_true] at hne
    obtain ⟨hne1, hne2⟩ := hne
    have hind' := isEmpty_false_of_ne_nil hind
    have hcompact : renderValue [] (.obj ((k, v) :: ms)) d =
        '{' :: (renderMembers [] ((k, v) :: ms) (d + 1) ++ ['}']) := by
      simp [renderValue_obj_cons, nlIndent]
    rw [hcompact]
    refine foldl_cons_piece ind '{' (fmtStep_openBrace ind out level) ?_
    refine foldl_piece ind
      (fold_compact_members k v ms ind (d + 1)
        (out ++ '{' :: '\n' :: indentRep ind (level + 1)) (level + 1)
        hind hne1 hne2) ?_
    rw [foldl_one, fmtStep_closeBrace ind _ (level + 1)]
    obtain ⟨c, hc, hht⟩ := renderMembers_last ind k v ms (level + 1)
    have hine : renderMembers ind ((k, v) :: ms) (level + 1) ≠ [] := by
      intro hnil
      rw [hnil] at hc
      simp at hc
    have hlast : ((out ++ '{' :: '\n' :: indentRep ind (level + 1)) ++
        renderMembers ind ((k, v) :: ms) (level + 1)).getLast? = some c := by
      rw [getLast?_append_right hine, hc]
    rw [trimLineEnd_noop hlast hht]
    simp [renderValue_obj_cons, nlIndent, hind', List.append_assoc]
termination_by v _ _ _ _ _ _ => sizeOf v

theorem fold_compact_items : ∀ (e : JsonValue) (es : List JsonValue)
    (ind : List Char) (d : Nat) (out : List Char) (level : Nat), ind ≠ [] →
    noEmpty e = true → noEmptyItems es = true →
    (renderItems [] (e :: es) d).foldl (fmtStep ind) ⟨out, level, false, false⟩ =
      ⟨out ++ renderItems ind (e :: es) level, level, false, false⟩
  | e, [], ind, d, out, level, hind, hne1, _ =>
    fold_compact_val e ind d out level hind hne1
  | e, e2 :: es2, ind, d, out, level, hind, hne1, hne2 => by
    simp only [noEmptyItems, Bool.and_eq_true] at hne2
    obtain ⟨hne2a, hne2b⟩ := hne2
    have hind' := isEmpty_false_of_ne_nil hind
    have hcompact : renderItems [] (e :: e2 :: es2) d =
        renderValue [] e d ++ (',' :: renderItems [] (e2 :: es2) d) := by
      simp [renderItems_cons2, nlIndent]
    rw [hcompact]
    refine foldl_piece ind (fold_compact_val e ind d out level hind hne1) ?_
    refine foldl_cons_piece ind ','
      (fmtStep_comma ind (out ++ renderValue ind e level) level) ?_
    rw [fold_compact_items e2 es2 ind d
      ((out ++ renderValue ind e level) ++ ',' :: '\n' :: indentRep ind level)
      level hind hne2a hne2b]
    simp [renderItems_cons2, nlIndent, hind', List.append_assoc]
termination_by e es _ _ _ _ _ _ _ => sizeOf e + sizeOf es

theorem fold_compact_members : ∀ (k : List Char) (v : JsonValue)
    (ms : List (List Char × JsonValue)) (ind : List Char) (d : Nat)
    (out : List Char) (level : Nat), ind ≠ [] →
    noEmpty v = true → noEmptyMembers ms = true →
    (renderMembers [] ((k, v) :: ms) d).foldl (fmtStep ind)
        ⟨out, level, false, false⟩ =
      ⟨out ++ renderMembers ind ((k, v) :: ms) level, level, false, false⟩
  | k, v, [], ind, d, out, level, hind, hnev, _ => by
    have hind' := isEmpty_false_of_ne_nil hind
    have hcompact : renderMembers [] [(k, v)] d =
        quoteStr k ++ (':' :: renderValue [] v d) := by
      simp [renderMembers_single, colonSep]
    rw [hcompact]
    refine foldl_piece ind (foldFmt_quoteStr ind k out level) ?_
    refine foldl_cons_piece ind ':'
      (fmtStep_colon ind (out ++ quoteStr k) level) ?_
    rw [fold_compact_val v ind d ((out ++ quoteStr k) ++ [':', ' ']) level
      hind hnev]
    simp [renderMembers_single, colonSep, hind', List.append_assoc]
  | k, v, (k2, v2) :: ms2, ind, d, out, level, hind, hnev, hnems => by
    simp only [noEmptyMembers, Bool.and_eq_true] at hnems
    obtain ⟨hne2a, hne2b⟩ := hnems
    have hind' := isEmpty_false_of_ne_nil hind
    have hcompact : renderMembers [] ((k, v) :: (k2, v2) :: ms2) d =
        quoteStr k ++ (':' :: (renderValue [] v d ++
          (',' :: renderMembers [] ((k2, v2) :: ms2) d))) := by
      simp [renderMembers_cons2, colonSep, nlIndent]
    rw [hcompact]
    refine foldl_piece ind (foldFmt_quoteStr ind k out level) ?_
    refine foldl_cons_piece ind ':'
      (fmtStep_colon ind (out ++ quoteStr k) level) ?_
    refine foldl_piece ind
      (fold_compact_val v ind d ((out ++ quoteStr k) ++ [':', ' ']) level
        hind hnev) ?_
    refine foldl_cons_piece ind ','
      (fmtStep_comma ind (((out ++ quoteStr k) ++ [':', ' ']) ++
        renderValue ind v level) level) ?_
    rw [fold_compact_members k2 v2 ms2 ind d
      ((((out ++ quoteStr k) ++ [':', ' ']) ++ renderValue ind v level) ++
        ',' :: '\n' :: indentRep ind level) level hind hne2a hne2b]
    simp [renderMembers_cons2, colonSep, nlIndent, hind', List.append_assoc]
termination_by _ v ms _ _ _ _ _ _ _ => sizeOf v + sizeOf ms
end

/-- C7 counterexample: the string made of an opening and a closing brace is a
syntactically complete, valid JSON text, yet running `computePartialFormatting`
over all of it with a two-space indent yields a three-line output (the
automaton unconditionally breaks the line after the opening brace and before
the closing one) while the reference pretty-printer renders the empty object
compactly. -/
theorem formatPrefix_not_pretty :
    jsonParse "\x7b\x7d".data = .ok (.obj []) ∧
    (computePartialFormatting "\x7b\x7d".data 2 [' ', ' ']).formatted ≠
      renderValue [' ', ' '] (.obj []) 0 :=
  ⟨rfl, by decide⟩

/-- C7 (amended): for a syntactically complete input given in the reference
serializer's compact form, provided its value contains no empty object and no
empty array, `formatPrefix(s, length(s), indent)` with a nonempty indent unit
produces exactly the reference pretty-print of the parsed value with that
indent unit (and the offset equal to its length). -/
theorem formatPrefix_complete_eq_pretty (ind : List Char) (v : JsonValue)
    (hind : ind ≠ []) (hne : noEmpty v = true) :
    jsonParse (renderValue [] v 0) = .ok v ∧
    computePartialFormatting (renderValue [] v 0)
        (renderValue [] v 0).length ind =
      ⟨renderValue ind v 0, (renderValue ind v 0).length⟩ := by
  refine ⟨jsonParse_render v [] rfl, ?_⟩
  have hfold := fold_compact_val v ind 0 [] 0 hind hne
  rw [List.nil_append] at hfold
  unfold computePartialFormatting
  simp only [Nat.min_self, List.take_length]
  rw [hfold]

/-- Witness for C7 on the compact serialization of an object with one member
holding a two-element array. -/
theorem formatPrefix_complete_eq_pretty_witness :
    (([' ', ' '] : List Char) ≠ [] ∧
      noEmpty (.obj [(['b'], .arr [.num ⟨['2'], rfl⟩, .bool false])]) = true) ∧
    jsonParse
        (renderValue [] (.obj [(['b'], .arr [.num ⟨['2'], rfl⟩, .bool false])]) 0) =
      .ok (.obj [(['b'], .arr [.num ⟨['2'], rfl⟩, .bool false])]) ∧
    computePartialFormatting
        (renderValue [] (.obj [(['b'], .arr [.num ⟨['2'], rfl⟩, .bool false])]) 0)
        (renderValue [] (.obj [(['b'], .arr [.num ⟨['2'], rfl⟩, .bool false])]) 0).length
        [' ', ' '] =
      ⟨renderValue [' ', ' '] (.obj [(['b'], .arr [.num ⟨['2'], rfl⟩, .bool false])]) 0,
        (renderValue [' ', ' ']
          (.obj [(['b'], .arr [.num ⟨['2'], rfl⟩, .bool false])]) 0).length⟩ :=
  ⟨⟨by decide, by decide⟩,
    formatPrefix_complete_eq_pretty [' ', ' ']
      (.obj [(['b'], .arr [.num ⟨['2'], rfl⟩, .bool false])]) (by decide) (by decide)⟩

end JsonLintPlus
